import Mathlib

/-!
Verification of the DICOM volume/mesh/annotation core of the
3d_dicom_software_for_students repository (React implementation).

The definitions below are shallow embeddings of the TypeScript source:

* `src/lib/dicom/geometry.ts`   — normalized/voxel/patient coordinate maps
* `src/lib/dicom/exportSr.ts`   — structured-report export of annotations
* `src/components/ImportSRPanel.tsx` — structured-report import
* `src/lib/dicom/parseDicom.ts` — series assembly and spacing derivation
* `src/components/ParseButton.tsx` — volume construction and auto-iso (Otsu)
* `src/workers/marchingCubes.worker.ts` — mesh extraction pipeline

Machine floating point is modelled by exact rationals (ℚ); the square roots
computed by `Math.hypot` are modelled by `Real.sqrt` over ℝ.  JavaScript
`Math.round`, `Math.floor`, truthiness of optional strings, and typed-array
reinterpretation of byte buffers are modelled explicitly where they matter.
-/

/-- A 3-vector of rationals, modelling the `Vec3 = [number, number, number]`
tuples of `geometry.ts`. -/
@[ext]
structure V3 where
  x : ℚ
  y : ℚ
  z : ℚ
  deriving DecidableEq, Repr

/-- A 3×3 rational matrix in row-major form, modelling the `number[][]`
matrices of `geometry.ts`. -/
@[ext]
structure Mat3 where
  a00 : ℚ
  a01 : ℚ
  a02 : ℚ
  a10 : ℚ
  a11 : ℚ
  a12 : ℚ
  a20 : ℚ
  a21 : ℚ
  a22 : ℚ
  deriving DecidableEq, Repr

/-- Volume metadata as consumed by `geometry.ts` and `exportSr.ts`
(`VolumeMeta` in `types/annotation.ts`); every field is optional there. -/
structure VolMeta where
  dimensions : Option (ℕ × ℕ × ℕ)
  spacing : Option V3
  origin : Option V3
  orientation : Option (List ℚ)
  deriving DecidableEq, Repr

/-- `normalizedToVoxel` from `geometry.ts`: multiply each normalized
coordinate by `(dim - 1)`. -/
def normalizedToVoxel (position : V3) (dims : ℕ × ℕ × ℕ) : V3 :=
  ⟨position.x * ((dims.1 : ℚ) - 1),
   position.y * ((dims.2.1 : ℚ) - 1),
   position.z * ((dims.2.2 : ℚ) - 1)⟩

/-- `voxelToNormalized` from `geometry.ts`: divide by `(dim - 1)`, guarding
`dim = 1` (and `dim = 0`) to return 0. -/
def voxelToNormalized (voxel : V3) (dims : ℕ × ℕ × ℕ) : V3 :=
  ⟨if 1 < dims.1 then voxel.x / ((dims.1 : ℚ) - 1) else 0,
   if 1 < dims.2.1 then voxel.y / ((dims.2.1 : ℚ) - 1) else 0,
   if 1 < dims.2.2 then voxel.z / ((dims.2.2 : ℚ) - 1) else 0⟩

/-- `orientationMatrix` from `geometry.ts`: the nine orientation entries
`[r0,r1,r2,c0,c1,c2,s0,s1,s2]` become the matrix with columns row-dir,
col-dir, slice-dir; `none` models the throw on a missing or non-9-element
orientation. -/
def orientationMatrix (vol : VolMeta) : Option Mat3 :=
  match vol.orientation with
  | some [r0, r1, r2, c0, c1, c2, s0, s1, s2] =>
      some ⟨r0, c0, s0, r1, c1, s1, r2, c2, s2⟩
  | _ => none

/-- Determinant as computed at the top of `invert3x3` in `geometry.ts`. -/
def det3 (m : Mat3) : ℚ :=
  m.a00 * (m.a11 * m.a22 - m.a12 * m.a21) -
  m.a01 * (m.a10 * m.a22 - m.a12 * m.a20) +
  m.a02 * (m.a10 * m.a21 - m.a11 * m.a20)

/-- `invert3x3` from `geometry.ts`: cofactor inverse, `none` modelling the
throw when `|det| < 1e-8`. -/
def invert3x3 (m : Mat3) : Option Mat3 :=
  if |det3 m| < 1 / 100000000 then none
  else
    let invDet := 1 / det3 m
    some ⟨(m.a11 * m.a22 - m.a12 * m.a21) * invDet,
          (m.a02 * m.a21 - m.a01 * m.a22) * invDet,
          (m.a01 * m.a12 - m.a02 * m.a11) * invDet,
          (m.a12 * m.a20 - m.a10 * m.a22) * invDet,
          (m.a00 * m.a22 - m.a02 * m.a20) * invDet,
          (m.a02 * m.a10 - m.a00 * m.a12) * invDet,
          (m.a10 * m.a21 - m.a11 * m.a20) * invDet,
          (m.a01 * m.a20 - m.a00 * m.a21) * invDet,
          (m.a00 * m.a11 - m.a01 * m.a10) * invDet⟩

/-- Matrix-vector application, matching the explicit sums written out in
`voxelToPatient` and `patientToVoxel`. -/
def mulVec (m : Mat3) (v : V3) : V3 :=
  ⟨m.a00 * v.x + m.a01 * v.y + m.a02 * v.z,
   m.a10 * v.x + m.a11 * v.y + m.a12 * v.z,
   m.a20 * v.x + m.a21 * v.y + m.a22 * v.z⟩

/-- `voxelToPatient` from `geometry.ts`: scale by spacing, apply the
orientation matrix, add the origin.  `none` models the throws on missing
spacing/origin or a bad orientation. -/
def voxelToPatient (voxel : V3) (vol : VolMeta) : Option V3 :=
  match vol.spacing, vol.origin, orientationMatrix vol with
  | some sp, some o, some m =>
      let scaled : V3 := ⟨voxel.x * sp.x, voxel.y * sp.y, voxel.z * sp.z⟩
      let w := mulVec m scaled
      some ⟨o.x + w.x, o.y + w.y, o.z + w.z⟩
  | _, _, _ => none

/-- `patientToVoxel` from `geometry.ts`: subtract the origin, apply the
cofactor inverse of the orientation matrix, divide by spacing. -/
def patientToVoxel (patient : V3) (vol : VolMeta) : Option V3 :=
  match vol.spacing, vol.origin, orientationMatrix vol with
  | some sp, some o, some m =>
      match invert3x3 m with
      | none => none
      | some inv =>
          let diff : V3 := ⟨patient.x - o.x, patient.y - o.y, patient.z - o.z⟩
          let scaled := mulVec inv diff
          some ⟨scaled.x / sp.x, scaled.y / sp.y, scaled.z / sp.z⟩
  | _, _, _ => none

theorem invert3x3_det_ne (m minv : Mat3) (h : invert3x3 m = some minv) :
    det3 m ≠ 0 := by
  intro h0
  rw [invert3x3, if_pos (by rw [h0]; norm_num)] at h
  exact Option.noConfusion h

theorem invert3x3_mulVec (m minv : Mat3) (h : invert3x3 m = some minv)
    (v : V3) : mulVec minv (mulVec m v) = v := by
  have hdet : det3 m ≠ 0 := invert3x3_det_ne m minv h
  rw [invert3x3] at h
  split at h
  · exact Option.noConfusion h
  · obtain ⟨vx, vy, vz⟩ := v
    injection h with h
    subst h
    simp only [det3] at hdet
    ext <;> simp only [mulVec, det3] <;> field_simp <;> ring

/-- Exact round trip of the geometry maps: when the orientation matrix is
invertible and the spacing components are nonzero, `patientToVoxel` undoes
`voxelToPatient` exactly. -/
theorem geo_roundtrip (vol : VolMeta) (sp o : V3) (m : Mat3)
    (hsp : vol.spacing = some sp) (ho : vol.origin = some o)
    (hm : orientationMatrix vol = some m)
    (hdet : ¬ |det3 m| < 1 / 100000000)
    (hx : sp.x ≠ 0) (hy : sp.y ≠ 0) (hz : sp.z ≠ 0) (v : V3) :
    ∃ p, voxelToPatient v vol = some p ∧ patientToVoxel p vol = some v := by
  obtain ⟨minv, hminv⟩ : ∃ minv, invert3x3 m = some minv := by
    rw [invert3x3, if_neg hdet]; exact ⟨_, rfl⟩
  refine ⟨⟨o.x + (mulVec m ⟨v.x * sp.x, v.y * sp.y, v.z * sp.z⟩).x,
          o.y + (mulVec m ⟨v.x * sp.x, v.y * sp.y, v.z * sp.z⟩).y,
          o.z + (mulVec m ⟨v.x * sp.x, v.y * sp.y, v.z * sp.z⟩).z⟩, ?_, ?_⟩
  · simp only [voxelToPatient, hsp, ho, hm]
  simp only [patientToVoxel, hsp, ho, hm, hminv]
  have hscaled :
      (⟨o.x + (mulVec m ⟨v.x * sp.x, v.y * sp.y, v.z * sp.z⟩).x - o.x,
        o.y + (mulVec m ⟨v.x * sp.x, v.y * sp.y, v.z * sp.z⟩).y - o.y,
        o.z + (mulVec m ⟨v.x * sp.x, v.y * sp.y, v.z * sp.z⟩).z - o.z⟩ : V3) =
      mulVec m ⟨v.x * sp.x, v.y * sp.y, v.z * sp.z⟩ := by
    ext <;> ring
  rw [hscaled, invert3x3_mulVec m minv hminv]
  congr 1
  ext
  · exact mul_div_cancel_right₀ v.x hx
  · exact mul_div_cancel_right₀ v.y hy
  · exact mul_div_cancel_right₀ v.z hz

/-- C3: for every volume whose 9-entry orientation matrix has
|determinant| ≥ 10⁻⁸ and whose spacing components are nonzero, and every
voxel coordinate v in [0, dim−1]³, `patientToVoxel (voxelToPatient v)`
equals v componentwise within 10⁻⁶ (in fact exactly). -/
theorem C3_geometry_roundtrip (vol : VolMeta) (dims : ℕ × ℕ × ℕ) (sp o : V3)
    (m : Mat3)
    (hdim : vol.dimensions = some dims)
    (hsp : vol.spacing = some sp) (ho : vol.origin = some o)
    (hm : orientationMatrix vol = some m)
    (hdet : 1 / 100000000 ≤ |det3 m|)
    (hx : sp.x ≠ 0) (hy : sp.y ≠ 0) (hz : sp.z ≠ 0) (v : V3)
    (hv : 0 ≤ v.x ∧ v.x ≤ (dims.1 : ℚ) - 1 ∧
          0 ≤ v.y ∧ v.y ≤ (dims.2.1 : ℚ) - 1 ∧
          0 ≤ v.z ∧ v.z ≤ (dims.2.2 : ℚ) - 1) :
    ∃ p v2, voxelToPatient v vol = some p ∧ patientToVoxel p vol = some v2 ∧
      |v2.x - v.x| ≤ 1 / 1000000 ∧ |v2.y - v.y| ≤ 1 / 1000000 ∧
      |v2.z - v.z| ≤ 1 / 1000000 := by
  obtain ⟨p, hp, hback⟩ :=
    geo_roundtrip vol sp o m hsp ho hm (not_lt.mpr hdet) hx hy hz v
  exact ⟨p, v, hp, hback, by simp, by simp, by simp⟩

/-- The volume of scenario S5: spacing (0.5, 0.75, 2.0), origin (10, 20, 30),
identity orientation, 16³ voxels. -/
def volS5 : VolMeta :=
  { dimensions := some (16, 16, 16)
  , spacing := some ⟨1 / 2, 3 / 4, 2⟩
  , origin := some ⟨10, 20, 30⟩
  , orientation := some [1, 0, 0, 0, 1, 0, 0, 0, 1] }

theorem C3_geometry_roundtrip_witness :
    ∃ p v2, voxelToPatient ⟨2, 4, 8⟩ volS5 = some p ∧
      patientToVoxel p volS5 = some v2 ∧
      |v2.x - (2 : ℚ)| ≤ 1 / 1000000 ∧ |v2.y - (4 : ℚ)| ≤ 1 / 1000000 ∧
      |v2.z - (8 : ℚ)| ≤ 1 / 1000000 :=
  C3_geometry_roundtrip volS5 (16, 16, 16) ⟨1 / 2, 3 / 4, 2⟩ ⟨10, 20, 30⟩
    ⟨1, 0, 0, 0, 1, 0, 0, 0, 1⟩ rfl rfl rfl rfl (by norm_num [det3])
    (by norm_num) (by norm_num) (by norm_num) ⟨2, 4, 8⟩ (by norm_num)

/-- Annotation kinds (`AnnotationType` in `types/annotation.ts`). -/
inductive AnnKind
  | marker
  | arrow
  | label
  deriving DecidableEq, Repr

/-- The fields of an annotation read by the SR codec (`types/annotation.ts`);
`id`, `createdAt` and `linkedToId` are never read by `exportSr.ts` or
`ImportSRPanel.tsx` and are omitted.  The source field `type` is called
`kind` here. -/
structure Ann where
  kind : AnnKind
  position : V3
  arrowTo : Option V3
  sliceIndex : Option ℤ
  labelText : Option String
  deriving DecidableEq, Repr

/-- JavaScript truthiness of an optional string (`undefined` and the empty
string are falsy). -/
def strTruthy : Option String → Bool
  | none => false
  | some s => s != ""

/-- JavaScript `Math.round`: round half toward positive infinity. -/
def jsRound (q : ℚ) : ℤ := ⌊q + 1 / 2⌋

/-- SR graphic types emitted by `annotationToContentItem`. -/
inductive GType
  | point
  | polyline
  deriving DecidableEq, Repr

/-- A structured-report content item, keeping exactly the fields that
`ImportSRPanel.tsx` reads back (`ValueType`/`GraphicType`/`GraphicData`/
`TextValue`) plus the referenced SOP instance of the export side. -/
inductive CItem
  | scoord (gtype : GType) (graphicData : List ℚ) (refSOP : Option String)
  | textItem (value : String)
  deriving DecidableEq, Repr

/-- `annotationToContentItem` from `exportSr.ts`:  map the normalized
position (and, for arrows with an endpoint, the arrow endpoint) into patient
coordinates, pick the referenced slice by `sliceIndex` or the rounded z
component, and emit the SCOORD3D item followed by a TEXT item when a label
text is present.  `none` models a throw inside the geometry maps. -/
def sliceIdxOf (a : Ann) (dims : ℕ × ℕ × ℕ) : ℤ :=
  match a.sliceIndex with
  | some si => min (max si 0) ((dims.2.2 : ℤ) - 1)
  | none =>
      min (max (jsRound (a.position.z * ((dims.2.2 : ℚ) - 1))) 0)
        ((dims.2.2 : ℤ) - 1)

/-- The `ReferencedSOPSequence` entry chosen by `annotationToContentItem`:
the SOP instance identifier of slice `sliceIdx` when present and truthy. -/
def refSOPof (a : Ann) (dims : ℕ × ℕ × ℕ)
    (seriesSops : Option (List (Option String))) : Option String :=
  match seriesSops with
  | none => none
  | some sops =>
      match
        (if h : 0 ≤ sliceIdxOf a dims ∧ (sliceIdxOf a dims).toNat < sops.length
         then some (sops.get ⟨(sliceIdxOf a dims).toNat, h.2⟩)
         else none) with
      | some (some s) => if s = "" then none else some s
      | _ => none

def annotationToContentItem (a : Ann) (vol : VolMeta)
    (seriesSops : Option (List (Option String))) : Option (List CItem) :=
  match vol.dimensions with
  | none => none
  | some dims =>
    match voxelToPatient (normalizedToVoxel a.position dims) vol with
    | none => none
    | some pt =>
      let gtype := if a.kind = AnnKind.arrow then GType.polyline else GType.point
      let gdataOpt : Option (List ℚ) :=
        match a.kind, a.arrowTo with
        | AnnKind.arrow, some e =>
            match voxelToPatient (normalizedToVoxel e dims) vol with
            | none => none
            | some pe => some [pt.x, pt.y, pt.z, pe.x, pe.y, pe.z]
        | _, _ => some [pt.x, pt.y, pt.z]
      match gdataOpt with
      | none => none
      | some gdata =>
          some ([CItem.scoord gtype gdata (refSOPof a dims seriesSops)] ++
            (if strTruthy a.labelText then [CItem.textItem (a.labelText.getD "")]
             else []))

/-- Error outcomes of `exportAnnotationsToSR`, one per distinct thrown
message. -/
inductive ExpErr
  | noAnns
  | missingSpacingDims
  | missingOriginOrient
  | convError
  deriving DecidableEq, Repr

/-- `ensureMeta` from `exportSr.ts`: the precondition check run first by
`exportAnnotationsToSR`. -/
def ensureMeta (anns : List Ann) (vol : VolMeta) : Option ExpErr :=
  if anns.length = 0 then some ExpErr.noAnns
  else if vol.spacing.isNone ∨ vol.dimensions.isNone then
    some ExpErr.missingSpacingDims
  else if vol.origin.isNone ∨ vol.orientation.isNone then
    some ExpErr.missingOriginOrient
  else none

/-- The `ContentSequence` built by `exportAnnotationsToSR`: the concatenation
of each annotation's content items (the `annotations.forEach` push loop),
with a throw anywhere aborting the whole export. -/
def exportContentSeq : List Ann → VolMeta → Option (List (Option String)) →
    Option (List CItem)
  | [], _, _ => some []
  | a :: rest, vol, seriesSops =>
      match annotationToContentItem a vol seriesSops with
      | none => none
      | some items =>
          match exportContentSeq rest vol seriesSops with
          | none => none
          | some restItems => some (items ++ restItems)

/-- `exportAnnotationsToSR` from `exportSr.ts`, reduced to the data that
the importing side reads back: run `ensureMeta`, then build the content
sequence.
The DICOM envelope (UIDs, dates, template identifier) carries no annotation
data and is not modelled. -/
def exportAnnotationsToSR (anns : List Ann) (vol : VolMeta)
    (seriesSops : Option (List (Option String))) : Except ExpErr (List CItem) :=
  match ensureMeta anns vol with
  | some e => Except.error e
  | none =>
      match exportContentSeq anns vol seriesSops with
      | none => Except.error ExpErr.convError
      | some items => Except.ok items

/-- C10: exportAnnotationsToSR rejects exactly the inputs with an empty
annotation list or a missing spacing, dimensions, origin or orientation,
producing no report there; otherwise the precondition check passes and
export proceeds past it. -/
theorem C10_export_preconditions (anns : List Ann) (vol : VolMeta)
    (seriesSops : Option (List (Option String))) :
    ((ensureMeta anns vol).isSome ↔
      (anns = [] ∨ vol.spacing = none ∨ vol.dimensions = none ∨
       vol.origin = none ∨ vol.orientation = none)) ∧
    (∀ e, ensureMeta anns vol = some e →
      exportAnnotationsToSR anns vol seriesSops = Except.error e ∧
      e ≠ ExpErr.convError) ∧
    (ensureMeta anns vol = none →
      (∃ items, exportAnnotationsToSR anns vol seriesSops = Except.ok items) ∨
      exportAnnotationsToSR anns vol seriesSops = Except.error ExpErr.convError) := by
  refine ⟨?_, ?_, ?_⟩
  · unfold ensureMeta
    split_ifs with h1 h2 h3
    · simp only [Option.isSome_some, true_iff]
      exact Or.inl (List.length_eq_zero.mp h1)
    · simp only [Option.isSome_some, true_iff]
      rcases h2 with h | h
      · exact Or.inr (Or.inl (Option.isNone_iff_eq_none.mp h))
      · exact Or.inr (Or.inr (Or.inl (Option.isNone_iff_eq_none.mp h)))
    · simp only [Option.isSome_some, true_iff]
      rcases h3 with h | h
      · exact Or.inr (Or.inr (Or.inr (Or.inl (Option.isNone_iff_eq_none.mp h))))
      · exact Or.inr (Or.inr (Or.inr (Or.inr (Option.isNone_iff_eq_none.mp h))))
    · simp only [Option.isSome_none, Bool.false_eq_true, false_iff]
      intro hh
      rcases hh with hh | hh | hh | hh | hh
      · exact h1 (by simp [hh])
      · exact h2 (Or.inl (by simp [hh]))
      · exact h2 (Or.inr (by simp [hh]))
      · exact h3 (Or.inl (by simp [hh]))
      · exact h3 (Or.inr (by simp [hh]))
  · intro e he
    constructor
    · rw [exportAnnotationsToSR, he]
    · unfold ensureMeta at he
      split_ifs at he <;> simp_all <;> subst he <;> decide
  · intro he
    rw [exportAnnotationsToSR, he]
    cases h : exportContentSeq anns vol seriesSops with
    | none => exact Or.inr rfl
    | some items => exact Or.inl ⟨items, rfl⟩

/-- A volume record with every metadata field absent. -/
def emptyVol : VolMeta := ⟨none, none, none, none⟩

theorem C10_export_preconditions_witness :
    exportAnnotationsToSR [] emptyVol none = Except.error ExpErr.noAnns ∧
    ExpErr.noAnns ≠ ExpErr.convError :=
  (C10_export_preconditions [] emptyVol none).2.1 ExpErr.noAnns rfl

/-- An annotation as reconstructed by `ImportSRPanel.tsx` (the object pushed
into its local `annotations` array). -/
structure ImpAnn where
  kind : AnnKind
  position : V3
  arrowTo : Option V3
  labelText : Option String
  deriving DecidableEq, Repr

/-- `clampNorm` from `ImportSRPanel.tsx`: clamp each component to [0, 1]. -/
def clampNorm (c : V3) : V3 :=
  ⟨min (max c.x 0) 1, min (max c.y 0) 1, min (max c.z 0) 1⟩

/-- One step of the `items.forEach` loop of `handleFile` in
`ImportSRPanel.tsx`.  The state is the annotation list built so far together
with `lastIndex`; `none` models a throw inside `patientToVoxel` (which aborts
the whole import via the surrounding try/catch). -/
def srImportStep (vol : VolMeta) (dims : ℕ × ℕ × ℕ)
    (st : List ImpAnn × ℤ) (item : CItem) : Option (List ImpAnn × ℤ) :=
  match item with
  | CItem.scoord gtype coords _ =>
      let kind :=
        if gtype = GType.polyline ∧ 6 ≤ coords.length then AnnKind.arrow
        else AnnKind.marker
      match patientToVoxel ⟨coords.getD 0 0, coords.getD 1 0, coords.getD 2 0⟩
          vol with
      | none => none
      | some startVoxel =>
          let startNorm := clampNorm (voxelToNormalized startVoxel dims)
          let arrowToOpt : Option (Option V3) :=
            if kind = AnnKind.arrow ∧ 6 ≤ coords.length then
              match patientToVoxel
                  ⟨coords.getD 3 0, coords.getD 4 0, coords.getD 5 0⟩ vol with
              | none => none
              | some endVoxel =>
                  some (some (clampNorm (voxelToNormalized endVoxel dims)))
            else some none
          match arrowToOpt with
          | none => none
          | some arrowTo =>
              some (st.1 ++ [⟨kind, startNorm, arrowTo, none⟩],
                (st.1.length : ℤ))
  | CItem.textItem tv =>
      if 0 ≤ st.2 ∧ tv ≠ "" then
        match st.1.get? st.2.toNat with
        | none => some st
        | some old =>
            some (st.1.set st.2.toNat
              ⟨AnnKind.label, old.position, old.arrowTo, some tv⟩, st.2)
      else some st

/-- The full `items.forEach` loop, starting from an empty list and
`lastIndex = -1`. -/
def srImportFold (vol : VolMeta) (dims : ℕ × ℕ × ℕ) (items : List CItem) :
    Option (List ImpAnn × ℤ) :=
  items.foldlM (srImportStep vol dims) ([], -1)

/-- Error outcomes of the import handler. -/
inductive ImpErr
  | noVolume
  | convError
  | noAnnsFound
  deriving DecidableEq, Repr

/-- The data core of `handleFile` in `ImportSRPanel.tsx`: require the loaded
volume to carry dimensions, spacing, origin and orientation, run the content
sequence loop, and reject an empty result. -/
def handleFileImport (items : List CItem) (vol : VolMeta) :
    Except ImpErr (List ImpAnn) :=
  match vol.dimensions, vol.spacing, vol.origin, vol.orientation with
  | some dims, some _, some _, some _ =>
      (match srImportFold vol dims items with
      | none => Except.error ImpErr.convError
      | some (anns, _) =>
          if anns.length = 0 then Except.error ImpErr.noAnnsFound
          else Except.ok anns)
  | _, _, _, _ => Except.error ImpErr.noVolume

/-- The annotation that the import loop reconstructs from the export of
annotation `a` (assuming the geometry round trip is exact): the position and
any arrow endpoint survive unchanged, while an annotation carrying label
text comes back with kind `label`. -/
def impOf (a : Ann) : ImpAnn :=
  ⟨(if strTruthy a.labelText then AnnKind.label else a.kind),
   a.position,
   (if a.kind = AnnKind.arrow then a.arrowTo else none),
   (if strTruthy a.labelText then a.labelText else none)⟩

/-- The volume of the C1 counterexample: a single-slice 2×2×1 volume with
identity orientation, unit spacing and zero origin. -/
def volDepthOne : VolMeta :=
  ⟨some (2, 2, 1), some ⟨1, 1, 1⟩, some ⟨0, 0, 0⟩,
   some [1, 0, 0, 0, 1, 0, 0, 0, 1]⟩

/-- The annotation of the C1 counterexample: a marker with label text at
normalized position (1/2, 1/2, 3/4). -/
def annDepthOne : Ann :=
  ⟨AnnKind.marker, ⟨1 / 2, 1 / 2, 3 / 4⟩, none, none, some "L"⟩

/-- C1 counterexample: exporting a marker with label text on a volume of
depth 1 and importing the result under the same volume yields an annotation
whose kind is `label` (not `marker`) and whose z position is 0, more than
10⁻⁴ away from the original 3/4.  So the round trip preserves neither the
type nor (within 10⁻⁴) the position claimed. -/
theorem C1_sr_roundtrip_counterexample :
    exportAnnotationsToSR [annDepthOne] volDepthOne none =
      Except.ok [CItem.scoord GType.point [1 / 2, 1 / 2, 0] none,
                 CItem.textItem "L"] ∧
    handleFileImport
      [CItem.scoord GType.point [1 / 2, 1 / 2, 0] none, CItem.textItem "L"]
      volDepthOne =
      Except.ok [⟨AnnKind.label, ⟨1 / 2, 1 / 2, 0⟩, none, some "L"⟩] ∧
    AnnKind.label ≠ annDepthOne.kind ∧
    ¬ |(0 : ℚ) - annDepthOne.position.z| ≤ 1 / 10000 := by
  have hexp : exportAnnotationsToSR [annDepthOne] volDepthOne none =
      Except.ok [CItem.scoord GType.point [1 / 2, 1 / 2, 0] none,
                 CItem.textItem "L"] := by
    unfold exportAnnotationsToSR
    norm_num [ensureMeta, exportContentSeq, annotationToContentItem,
      annDepthOne, volDepthOne, normalizedToVoxel, voxelToPatient,
      orientationMatrix, mulVec, jsRound, strTruthy]
    decide
  have himp : handleFileImport
      [CItem.scoord GType.point [1 / 2, 1 / 2, 0] none, CItem.textItem "L"]
      volDepthOne =
      Except.ok [⟨AnnKind.label, ⟨1 / 2, 1 / 2, 0⟩, none, some "L"⟩] := by
    unfold handleFileImport
    norm_num [srImportFold, List.foldlM, srImportStep, volDepthOne,
      patientToVoxel, orientationMatrix, invert3x3, det3, mulVec, clampNorm,
      voxelToNormalized]
    rw [if_neg (show ¬("L" = "") by decide)]
    norm_num
  refine ⟨hexp, himp, by simp [annDepthOne], ?_⟩
  rw [abs_of_nonpos (by norm_num [annDepthOne])]
  norm_num [annDepthOne]

/-- All three components lie in the normalized range [0, 1]. -/
def inRange01 (p : V3) : Prop :=
  0 ≤ p.x ∧ p.x ≤ 1 ∧ 0 ≤ p.y ∧ p.y ≤ 1 ∧ 0 ≤ p.z ∧ p.z ≤ 1

/-- The annotations covered by the round-trip claim: a marker, or an arrow
with an endpoint, with all normalized coordinates in [0, 1]. -/
def validAnn (a : Ann) : Prop :=
  inRange01 a.position ∧
    (a.kind = AnnKind.marker ∨
     (a.kind = AnnKind.arrow ∧ ∃ e, a.arrowTo = some e ∧ inRange01 e))

theorem clamp_norm_voxel (p : V3) (dims : ℕ × ℕ × ℕ)
    (h2w : 2 ≤ dims.1) (h2h : 2 ≤ dims.2.1) (h2d : 2 ≤ dims.2.2)
    (hp : inRange01 p) :
    clampNorm (voxelToNormalized (normalizedToVoxel p dims) dims) = p := by
  obtain ⟨h1, h2, h3, h4, h5, h6⟩ := hp
  have hw : ((dims.1 : ℚ) - 1) ≠ 0 := by
    have : (2 : ℚ) ≤ (dims.1 : ℚ) := by exact_mod_cast h2w
    linarith
  have hh : ((dims.2.1 : ℚ) - 1) ≠ 0 := by
    have : (2 : ℚ) ≤ (dims.2.1 : ℚ) := by exact_mod_cast h2h
    linarith
  have hd : ((dims.2.2 : ℚ) - 1) ≠ 0 := by
    have : (2 : ℚ) ≤ (dims.2.2 : ℚ) := by exact_mod_cast h2d
    linarith
  have i1 : 1 < dims.1 := by omega
  have i2 : 1 < dims.2.1 := by omega
  have i3 : 1 < dims.2.2 := by omega
  ext
  · simp only [clampNorm, voxelToNormalized, normalizedToVoxel, if_pos i1]
    rw [mul_div_cancel_right₀ _ hw, max_eq_left h1, min_eq_left h2]
  · simp only [clampNorm, voxelToNormalized, normalizedToVoxel, if_pos i2]
    rw [mul_div_cancel_right₀ _ hh, max_eq_left h3, min_eq_left h4]
  · simp only [clampNorm, voxelToNormalized, normalizedToVoxel, if_pos i3]
    rw [mul_div_cancel_right₀ _ hd, max_eq_left h5, min_eq_left h6]

theorem listSetConcat {α : Type} (l : List α) (x y : α) :
    (l ++ [x]).set l.length y = l ++ [y] := by
  induction l with
  | nil => rfl
  | cons h t ih =>
      show h :: ((t ++ [x]).set t.length y) = h :: (t ++ [y])
      rw [ih]

theorem srImportStep_scoord_point (vol : VolMeta) (dims : ℕ × ℕ × ℕ)
    (pt vpos pos : V3) (refv : Option String)
    (hpt : patientToVoxel pt vol = some vpos)
    (hpos : clampNorm (voxelToNormalized vpos dims) = pos)
    (acc : List ImpAnn) (last0 : ℤ) :
    srImportStep vol dims (acc, last0)
      (CItem.scoord GType.point [pt.x, pt.y, pt.z] refv) =
      some (acc ++ [⟨AnnKind.marker, pos, none, none⟩], (acc.length : ℤ)) := by
  simp only [srImportStep, List.getD_cons_zero, List.getD_cons_succ]
  rw [if_neg (by simp)]
  rw [show (⟨pt.x, pt.y, pt.z⟩ : V3) = pt from rfl, hpt]
  simp only [hpos]
  rw [if_neg (by simp)]

theorem srImportStep_scoord_polyline (vol : VolMeta) (dims : ℕ × ℕ × ℕ)
    (pt vpos pos pe vend epos : V3) (refv : Option String)
    (hpt : patientToVoxel pt vol = some vpos)
    (hpos : clampNorm (voxelToNormalized vpos dims) = pos)
    (hpe : patientToVoxel pe vol = some vend)
    (hepos : clampNorm (voxelToNormalized vend dims) = epos)
    (acc : List ImpAnn) (last0 : ℤ) :
    srImportStep vol dims (acc, last0)
      (CItem.scoord GType.polyline [pt.x, pt.y, pt.z, pe.x, pe.y, pe.z] refv) =
      some (acc ++ [⟨AnnKind.arrow, pos, some epos, none⟩],
        (acc.length : ℤ)) := by
  simp only [srImportStep, List.getD_cons_zero, List.getD_cons_succ]
  rw [if_pos (by simp)]
  rw [show (⟨pt.x, pt.y, pt.z⟩ : V3) = pt from rfl, hpt]
  simp only [hpos]
  rw [if_pos (by simp)]
  rw [show (⟨pe.x, pe.y, pe.z⟩ : V3) = pe from rfl, hpe]
  simp only [hepos]

theorem srImportStep_text (vol : VolMeta) (dims : ℕ × ℕ × ℕ)
    (acc : List ImpAnn) (ann1 : ImpAnn) (s : String) (hs : s ≠ "") :
    srImportStep vol dims (acc ++ [ann1], (acc.length : ℤ))
      (CItem.textItem s) =
      some (acc ++ [⟨AnnKind.label, ann1.position, ann1.arrowTo, some s⟩],
        (acc.length : ℤ)) := by
  simp only [srImportStep]
  rw [if_pos ⟨Int.natCast_nonneg acc.length, hs⟩]
  rw [show ((acc.length : ℤ)).toNat = acc.length from Int.toNat_natCast _]
  rw [List.get?_concat_length]
  simp only [listSetConcat]

theorem sr_one_ann (vol : VolMeta) (dims : ℕ × ℕ × ℕ) (sp o : V3) (m : Mat3)
    (sops : Option (List (Option String)))
    (hdim : vol.dimensions = some dims)
    (h2w : 2 ≤ dims.1) (h2h : 2 ≤ dims.2.1) (h2d : 2 ≤ dims.2.2)
    (hsp : vol.spacing = some sp) (ho : vol.origin = some o)
    (hm : orientationMatrix vol = some m)
    (hdet : ¬ |det3 m| < 1 / 100000000)
    (hx : sp.x ≠ 0) (hy : sp.y ≠ 0) (hz : sp.z ≠ 0)
    (a : Ann) (ha : validAnn a) :
    ∃ items, annotationToContentItem a vol sops = some items ∧
      ∀ (acc : List ImpAnn) (last0 : ℤ),
        items.foldlM (srImportStep vol dims) (acc, last0) =
          some (acc ++ [impOf a], (acc.length : ℤ)) := by
  obtain ⟨hpos01, hkind⟩ := ha
  obtain ⟨pt, hpt, hback⟩ := geo_roundtrip vol sp o m hsp ho hm hdet hx hy hz
    (normalizedToVoxel a.position dims)
  have hposeq :
      clampNorm (voxelToNormalized (normalizedToVoxel a.position dims) dims) =
        a.position :=
    clamp_norm_voxel a.position dims h2w h2h h2d hpos01
  rcases hkind with hmk | ⟨hak, e, hae, he01⟩
  · -- marker case
    have hitem : annotationToContentItem a vol sops =
        some ([CItem.scoord GType.point [pt.x, pt.y, pt.z]
            (refSOPof a dims sops)] ++
          (if strTruthy a.labelText then
            [CItem.textItem (a.labelText.getD "")] else [])) := by
      simp only [annotationToContentItem, hdim, hpt, hmk]
      rfl
    refine ⟨_, hitem, ?_⟩
    intro acc last0
    cases hlt : strTruthy a.labelText with
    | false =>
        have himp : impOf a = ⟨AnnKind.marker, a.position, none, none⟩ := by
          simp [impOf, hlt, hmk]
        rw [if_neg Bool.false_ne_true, List.append_nil]
        simp only [List.foldlM]
        rw [srImportStep_scoord_point vol dims pt _ _ _ hback hposeq acc last0]
        simp [himp]
    | true =>
        obtain ⟨s, hs, hsne⟩ : ∃ s, a.labelText = some s ∧ s ≠ "" := by
          cases hl : a.labelText with
          | none => rw [hl] at hlt; simp [strTruthy] at hlt
          | some s =>
              refine ⟨s, rfl, ?_⟩
              rw [hl] at hlt
              simpa [strTruthy] using hlt
        have himp : impOf a = ⟨AnnKind.label, a.position, none, some s⟩ := by
          simp [impOf, hs, strTruthy, hsne, hmk]
        rw [if_pos rfl]
        simp only [List.foldlM]
        rw [srImportStep_scoord_point vol dims pt _ _ _ hback hposeq acc last0]
        simp only [Option.bind_eq_bind, Option.some_bind]
        rw [hs]
        simp only [Option.getD_some]
        rw [srImportStep_text vol dims acc _ s hsne]
        simp [himp]
  · -- arrow case
    obtain ⟨pe, hpe, hbacke⟩ := geo_roundtrip vol sp o m hsp ho hm hdet hx hy hz
      (normalizedToVoxel e dims)
    have heposeq :
        clampNorm (voxelToNormalized (normalizedToVoxel e dims) dims) = e :=
      clamp_norm_voxel e dims h2w h2h h2d he01
    have hitem : annotationToContentItem a vol sops =
        some ([CItem.scoord GType.polyline
            [pt.x, pt.y, pt.z, pe.x, pe.y, pe.z] (refSOPof a dims sops)] ++
          (if strTruthy a.labelText then
            [CItem.textItem (a.labelText.getD "")] else [])) := by
      simp only [annotationToContentItem, hdim, hpt, hak, hae, hpe]
      rfl
    refine ⟨_, hitem, ?_⟩
    intro acc last0
    cases hlt : strTruthy a.labelText with
    | false =>
        have himp : impOf a = ⟨AnnKind.arrow, a.position, some e, none⟩ := by
          simp [impOf, hlt, hak, hae]
        rw [if_neg Bool.false_ne_true, List.append_nil]
        simp only [List.foldlM]
        rw [srImportStep_scoord_polyline vol dims pt _ _ pe _ _ _ hback hposeq
          hbacke heposeq acc last0]
        simp [himp]
    | true =>
        obtain ⟨s, hs, hsne⟩ : ∃ s, a.labelText = some s ∧ s ≠ "" := by
          cases hl : a.labelText with
          | none => rw [hl] at hlt; simp [strTruthy] at hlt
          | some s =>
              refine ⟨s, rfl, ?_⟩
              rw [hl] at hlt
              simpa [strTruthy] using hlt
        have himp : impOf a = ⟨AnnKind.label, a.position, some e, some s⟩ := by
          simp [impOf, hs, strTruthy, hsne, hak, hae]
        rw [if_pos rfl]
        simp only [List.foldlM]
        rw [srImportStep_scoord_polyline vol dims pt _ _ pe _ _ _ hback hposeq
          hbacke heposeq acc last0]
        simp only [Option.bind_eq_bind, Option.some_bind]
        rw [hs]
        simp only [Option.getD_some]
        rw [srImportStep_text vol dims acc _ s hsne]
        simp [himp]

theorem orientationMatrix_orientation (vol : VolMeta) (m : Mat3)
    (hm : orientationMatrix vol = some m) : ∃ l, vol.orientation = some l := by
  cases h : vol.orientation with
  | none => simp [orientationMatrix, h] at hm
  | some l => exact ⟨l, rfl⟩

theorem sr_many_anns (vol : VolMeta) (dims : ℕ × ℕ × ℕ) (sp o : V3) (m : Mat3)
    (sops : Option (List (Option String)))
    (hdim : vol.dimensions = some dims)
    (h2w : 2 ≤ dims.1) (h2h : 2 ≤ dims.2.1) (h2d : 2 ≤ dims.2.2)
    (hsp : vol.spacing = some sp) (ho : vol.origin = some o)
    (hm : orientationMatrix vol = some m)
    (hdet : ¬ |det3 m| < 1 / 100000000)
    (hx : sp.x ≠ 0) (hy : sp.y ≠ 0) (hz : sp.z ≠ 0)
    (anns : List Ann) (hall : ∀ a ∈ anns, validAnn a) :
    ∃ items, exportContentSeq anns vol sops = some items ∧
      ∀ (acc : List ImpAnn) (last0 : ℤ), ∃ last1,
        items.foldlM (srImportStep vol dims) (acc, last0) =
          some (acc ++ anns.map impOf, last1) := by
  induction anns with
  | nil => exact ⟨[], rfl, fun acc last0 => ⟨last0, by simp [List.foldlM]⟩⟩
  | cons a rest ih =>
      obtain ⟨itemsA, hA, hfoldA⟩ := sr_one_ann vol dims sp o m sops hdim
        h2w h2h h2d hsp ho hm hdet hx hy hz a (hall a (List.mem_cons_self a rest))
      obtain ⟨itemsR, hR, hfoldR⟩ :=
        ih (fun a ha => hall a (List.mem_cons_of_mem _ ha))
      refine ⟨itemsA ++ itemsR, by simp [exportContentSeq, hA, hR], ?_⟩
      intro acc last0
      obtain ⟨last1, hrest⟩ := hfoldR (acc ++ [impOf a]) (acc.length : ℤ)
      refine ⟨last1, ?_⟩
      rw [List.foldlM_append, hfoldA acc last0]
      simp only [Option.bind_eq_bind, Option.some_bind, hrest]
      simp [List.append_assoc]

/-- C1 (amended): for every volume whose dimensions are all at least 2, whose
spacing components are nonzero and whose orientation matrix has
|determinant| ≥ 10⁻⁸, and every non-empty list of markers (optionally with
label text) and arrows with endpoints, all in normalized range, exporting
with `exportAnnotationsToSR` and importing the content sequence with the
`handleFile` loop reproduces each normalized position and arrow endpoint
exactly (hence within 10⁻⁴) and preserves label text; annotations without
label text keep their kind, while a marker or arrow carrying label text is
reimported with kind `label` (the TEXT-item upgrade). -/
theorem C1_sr_roundtrip_amended (vol : VolMeta) (dims : ℕ × ℕ × ℕ) (sp o : V3)
    (m : Mat3) (sops : Option (List (Option String))) (anns : List Ann)
    (hdim : vol.dimensions = some dims)
    (h2w : 2 ≤ dims.1) (h2h : 2 ≤ dims.2.1) (h2d : 2 ≤ dims.2.2)
    (hsp : vol.spacing = some sp) (ho : vol.origin = some o)
    (hm : orientationMatrix vol = some m)
    (hdet : 1 / 100000000 ≤ |det3 m|)
    (hx : sp.x ≠ 0) (hy : sp.y ≠ 0) (hz : sp.z ≠ 0)
    (hne : anns ≠ [])
    (hall : ∀ a ∈ anns, validAnn a) :
    ∃ items, exportAnnotationsToSR anns vol sops = Except.ok items ∧
      handleFileImport items vol = Except.ok (anns.map impOf) := by
  obtain ⟨items, hexp, hfold⟩ := sr_many_anns vol dims sp o m sops hdim
    h2w h2h h2d hsp ho hm (not_lt.mpr hdet) hx hy hz anns hall
  obtain ⟨l, hl⟩ := orientationMatrix_orientation vol m hm
  have hens : ensureMeta anns vol = none := by
    unfold ensureMeta
    rw [if_neg (by simpa using hne), if_neg (by simp [hsp, hdim]),
      if_neg (by simp [ho, hl])]
  refine ⟨items, ?_, ?_⟩
  · simp only [exportAnnotationsToSR, hens, hexp]
  · obtain ⟨last1, hfold1⟩ := hfold [] (-1)
    simp only [handleFileImport, hdim, hsp, ho, hl, srImportFold, hfold1,
      List.nil_append]
    rw [if_neg (by simpa [List.length_map] using hne)]

/-- The two annotations of scenario S6: a labelled marker and an arrow. -/
def annsS6 : List Ann :=
  [⟨AnnKind.marker, ⟨1 / 4, 1 / 2, 3 / 4⟩, none, none, some "lesion"⟩,
   ⟨AnnKind.arrow, ⟨1 / 10, 1 / 10, 1 / 2⟩, some ⟨2 / 5, 1 / 5, 1 / 2⟩,
    none, none⟩]

theorem C1_sr_roundtrip_amended_witness :
    ∃ items, exportAnnotationsToSR annsS6 volS5 none = Except.ok items ∧
      handleFileImport items volS5 = Except.ok (annsS6.map impOf) :=
  C1_sr_roundtrip_amended volS5 (16, 16, 16) ⟨1 / 2, 3 / 4, 2⟩ ⟨10, 20, 30⟩
    ⟨1, 0, 0, 0, 1, 0, 0, 0, 1⟩ none annsS6 rfl (by norm_num) (by norm_num)
    (by norm_num) rfl rfl rfl (by norm_num [det3]) (by norm_num) (by norm_num)
    (by norm_num) (by simp [annsS6])
    (by
      intro a ha
      simp only [annsS6, List.mem_cons, List.mem_singleton] at ha
      rcases ha with ha | ha | ha
      · subst ha
        exact ⟨by norm_num [inRange01], Or.inl rfl⟩
      · subst ha
        exact ⟨by norm_num [inRange01],
          Or.inr ⟨rfl, ⟨2 / 5, 1 / 5, 1 / 2⟩, rfl, by norm_num [inRange01]⟩⟩
      · exact absurd ha (by simp))

/-- The fields of `ParsedSlice` from `parseDicom.ts` read by series assembly
and volume construction.  `pixelData` is the raw byte buffer of an
uncompressed slice; `encapsulatedJPEG` marks a JPEG-baseline slice whose
decoded 8-bit grayscale frame is produced externally by the browser decoder.
String identifiers other than the SOP instance are never read downstream and
are omitted. -/
structure ParsedSlice where
  rows : ℕ
  cols : ℕ
  bitsAllocated : ℕ
  pixelRepresentation : Option ℕ
  pixelData : Option (List ℕ)
  encapsulatedJPEG : Bool
  rescaleSlope : Option ℚ
  rescaleIntercept : Option ℚ
  imagePosition : Option V3
  imageOrientation : Option (List ℚ)
  pixelSpacing : Option (ℚ × ℚ)
  instanceNumber : Option ℚ
  sliceLocation : Option ℚ
  sopInstanceUID : Option String
  deriving DecidableEq, Repr

/-- The comparator `bySlicePosition` from `parseDicom.ts`: the z components
of image-position-patient when both are present and differ, otherwise the
instance numbers (defaulting to 0). -/
def bySlicePosition (a b : ParsedSlice) : ℚ :=
  match a.imagePosition, b.imagePosition with
  | some pa, some pb =>
      if pa.z ≠ pb.z then pa.z - pb.z
      else (a.instanceNumber.getD 0) - (b.instanceNumber.getD 0)
  | _, _ => (a.instanceNumber.getD 0) - (b.instanceNumber.getD 0)

/-- a sorts no later than b under `bySlicePosition`. -/
def sliceLE (a b : ParsedSlice) : Bool := bySlicePosition a b ≤ 0

/-- Stable insertion used to model `slices.sort(bySlicePosition)`
(Array.prototype.sort is stable). -/
def insertSlice (s : ParsedSlice) : List ParsedSlice → List ParsedSlice
  | [] => [s]
  | t :: ts => if sliceLE s t then s :: t :: ts else t :: insertSlice s ts

/-- Stable sort of the slice list by `bySlicePosition`. -/
def sortSlices : List ParsedSlice → List ParsedSlice
  | [] => []
  | s :: ss => insertSlice s (sortSlices ss)

/-- `Math.hypot` on three components: the Euclidean norm. -/
noncomputable def hypot3 (v : V3) : ℝ :=
  Real.sqrt (((v.x : ℝ)) ^ 2 + ((v.y : ℝ)) ^ 2 + ((v.z : ℝ)) ^ 2)

/-- The cross product `rowDir × colDir` written out in `parseDicomFiles`. -/
def cross3 (r c : V3) : V3 :=
  ⟨r.y * c.z - r.z * c.y, r.z * c.x - r.x * c.z, r.x * c.y - r.y * c.x⟩

/-- The z-spacing estimation of `parseDicomFiles` (lines 374-401), applied to
the sorted slice list: |Δ| by default, replaced by the projection of Δ onto
the unit slice normal when the orientation is a 6-vector with cross-product
length above 10⁻⁶ and the projection exceeds 10⁻⁶; a final guard maps
anything not above 10⁻⁶ to 1.  One slice or missing positions give 1. -/
noncomputable def spacingZOf : List ParsedSlice → ℝ
  | s0 :: s1 :: _ =>
      match s0.imagePosition, s1.imagePosition with
      | some p0, some p1 =>
          let diff : V3 := ⟨p1.x - p0.x, p1.y - p0.y, p1.z - p0.z⟩
          let dz0 : ℝ := hypot3 diff
          let dz : ℝ :=
            match s0.imageOrientation with
            | some [o0, o1, o2, o3, o4, o5] =>
                let normal := cross3 ⟨o0, o1, o2⟩ ⟨o3, o4, o5⟩
                let normLen := hypot3 normal
                if 1 / 1000000 < normLen then
                  let unitx := (normal.x : ℝ) / normLen
                  let unity := (normal.y : ℝ) / normLen
                  let unitz := (normal.z : ℝ) / normLen
                  let projection :=
                    |(diff.x : ℝ) * unitx + (diff.y : ℝ) * unity +
                      (diff.z : ℝ) * unitz|
                  if 1 / 1000000 < projection then projection else dz0
                else dz0
            | _ => dz0
          if 1 / 1000000 < dz then dz else 1
      | _, _ => 1
  | _ => 1

/-- The assembled series (`ParsedSeries` in `parseDicom.ts`), with the study
identifier strings omitted (no claim reads them). -/
structure ParsedSeries where
  slices : List ParsedSlice
  spacingX : ℚ
  spacingY : ℚ
  spacingZ : ℝ
  dimensions : ℕ × ℕ × ℕ
  origin : Option V3
  orientation : Option (List ℚ)

/-- The assembly stage of `parseDicomFiles` (lines 363-423): reject an empty
input, sort, estimate spacing, and take dimensions, origin and orientation
from the first sorted slice.  There is no cross-slice consistency check. -/
noncomputable def assembleSeries (slices : List ParsedSlice) :
    Except String ParsedSeries :=
  match sortSlices slices with
  | [] => Except.error "No DICOM files provided"
  | s0 :: rest =>
      Except.ok
        { slices := s0 :: rest
        , spacingX := match s0.pixelSpacing with | some p => p.2 | none => 1
        , spacingY := match s0.pixelSpacing with | some p => p.1 | none => 1
        , spacingZ := spacingZOf (s0 :: rest)
        , dimensions := (s0.cols, s0.rows, (s0 :: rest).length)
        , origin := s0.imagePosition
        , orientation := s0.imageOrientation }

theorem insertSlice_length (s : ParsedSlice) (l : List ParsedSlice) :
    (insertSlice s l).length = l.length + 1 := by
  induction l with
  | nil => rfl
  | cons t ts ih =>
      rw [insertSlice]
      split
      · rfl
      · simp [ih]

theorem sortSlices_length (l : List ParsedSlice) :
    (sortSlices l).length = l.length := by
  induction l with
  | nil => rfl
  | cons s ss ih => rw [sortSlices, insertSlice_length, ih, List.length_cons]

/-- C2 (amended): series assembly performs no cross-slice consistency check.
For every non-empty slice list — including ones whose slices disagree on
rows, columns, bits-per-sample, signedness or orientation — `assembleSeries`
returns a Series, taking dimensions and orientation from the first sorted
slice; no InconsistentSeries error exists in `parseDicomFiles`. -/
theorem C2_no_consistency_check (slices : List ParsedSlice)
    (hne : slices ≠ []) :
    ∃ s0 rest s, sortSlices slices = s0 :: rest ∧
      assembleSeries slices = Except.ok s ∧
      s.dimensions = (s0.cols, s0.rows, slices.length) ∧
      s.orientation = s0.imageOrientation := by
  cases h : sortSlices slices with
  | nil =>
      have hlen : slices.length = 0 := by rw [← sortSlices_length, h]; rfl
      exact absurd (List.length_eq_zero.mp hlen) hne
  | cons s0 rest =>
      have hassem : assembleSeries slices = Except.ok
          { slices := s0 :: rest
          , spacingX := match s0.pixelSpacing with | some p => p.2 | none => 1
          , spacingY := match s0.pixelSpacing with | some p => p.1 | none => 1
          , spacingZ := spacingZOf (s0 :: rest)
          , dimensions := (s0.cols, s0.rows, (s0 :: rest).length)
          , origin := s0.imagePosition
          , orientation := s0.imageOrientation } := by
        simp only [assembleSeries, h]
      refine ⟨s0, rest, _, rfl, hassem, ?_, rfl⟩
      show (s0.cols, s0.rows, (s0 :: rest).length) =
        (s0.cols, s0.rows, slices.length)
      rw [← h, sortSlices_length]

/-- A 4×8 16-bit unsigned slice with no geometry tags. -/
def sliceRowsA : ParsedSlice :=
  ⟨8, 4, 16, some 0, some [], false, none, none, none, none, none, none,
   none, none⟩

/-- A 4×16 8-bit signed slice with an orientation, disagreeing with
`sliceRowsA` on rows, bits-per-sample, signedness and orientation. -/
def sliceRowsB : ParsedSlice :=
  ⟨16, 4, 8, some 1, some [], false, none, none, none,
   some [1, 0, 0, 0, 1, 0], none, none, none, none⟩

/-- C2 counterexample: two slices disagreeing on rows, bits-per-sample,
signedness and orientation are assembled into a Series (with the first
slice's dimensions) instead of failing with an InconsistentSeries error. -/
theorem C2_counterexample :
    sliceRowsA.rows ≠ sliceRowsB.rows ∧
    sliceRowsA.bitsAllocated ≠ sliceRowsB.bitsAllocated ∧
    sliceRowsA.pixelRepresentation ≠ sliceRowsB.pixelRepresentation ∧
    sliceRowsA.imageOrientation ≠ sliceRowsB.imageOrientation ∧
    ∃ s, assembleSeries [sliceRowsA, sliceRowsB] = Except.ok s ∧
      s.dimensions = (4, 8, 2) := by
  have hsort : sortSlices [sliceRowsA, sliceRowsB] =
      [sliceRowsA, sliceRowsB] := by
    simp [sortSlices, insertSlice, sliceLE, bySlicePosition, sliceRowsA,
      sliceRowsB]
  refine ⟨by decide, by decide, by decide, by simp [sliceRowsA, sliceRowsB],
    ?_⟩
  refine ⟨{ slices := [sliceRowsA, sliceRowsB], spacingX := 1, spacingY := 1,
            spacingZ := spacingZOf [sliceRowsA, sliceRowsB],
            dimensions := (4, 8, 2), origin := none, orientation := none },
    ?_, rfl⟩
  simp only [assembleSeries, hsort]
  rfl

theorem C2_no_consistency_check_witness :
    ∃ s0 rest s, sortSlices [sliceRowsA] = s0 :: rest ∧
      assembleSeries [sliceRowsA] = Except.ok s ∧
      s.dimensions = (s0.cols, s0.rows, 1) ∧
      s.orientation = s0.imageOrientation :=
  C2_no_consistency_check [sliceRowsA] (by simp)

/-- Rational dot product of two 3-vectors. -/
def dot3 (a b : V3) : ℚ :=
  a.x * b.x + a.y * b.y + a.z * b.z

/-- C6: on an assembled series, when the first two sorted slices carry
image-position-patient and slice 0 carries a 6-vector orientation whose
row×col cross product has length above 10⁻⁶, the z spacing is |Δ·n̂| when
that projection exceeds 10⁻⁶, else |Δ| when that magnitude exceeds 10⁻⁶,
else 1; with exactly one slice, or a missing position among the first two,
the z spacing is 1. -/
theorem C6_z_spacing :
    (∀ (slices : List ParsedSlice) (s0 s1 : ParsedSlice)
        (rest : List ParsedSlice) (p0 p1 : V3) (o0 o1 o2 o3 o4 o5 : ℚ),
      sortSlices slices = s0 :: s1 :: rest →
      s0.imagePosition = some p0 → s1.imagePosition = some p1 →
      s0.imageOrientation = some [o0, o1, o2, o3, o4, o5] →
      (1 : ℝ) / 1000000 < hypot3 (cross3 ⟨o0, o1, o2⟩ ⟨o3, o4, o5⟩) →
      ∃ s, assembleSeries slices = Except.ok s ∧
        s.spacingZ =
          (if 1 / 1000000 <
              |(dot3 ⟨p1.x - p0.x, p1.y - p0.y, p1.z - p0.z⟩
                  (cross3 ⟨o0, o1, o2⟩ ⟨o3, o4, o5⟩) : ℝ)| /
                hypot3 (cross3 ⟨o0, o1, o2⟩ ⟨o3, o4, o5⟩)
           then
             |(dot3 ⟨p1.x - p0.x, p1.y - p0.y, p1.z - p0.z⟩
                 (cross3 ⟨o0, o1, o2⟩ ⟨o3, o4, o5⟩) : ℝ)| /
               hypot3 (cross3 ⟨o0, o1, o2⟩ ⟨o3, o4, o5⟩)
           else if 1 / 1000000 <
               hypot3 ⟨p1.x - p0.x, p1.y - p0.y, p1.z - p0.z⟩
           then hypot3 ⟨p1.x - p0.x, p1.y - p0.y, p1.z - p0.z⟩
           else 1)) ∧
    (∀ (slices : List ParsedSlice) (s0 : ParsedSlice),
      sortSlices slices = [s0] →
      ∃ s, assembleSeries slices = Except.ok s ∧ s.spacingZ = 1) ∧
    (∀ (slices : List ParsedSlice) (s0 s1 : ParsedSlice)
        (rest : List ParsedSlice),
      sortSlices slices = s0 :: s1 :: rest →
      (s0.imagePosition = none ∨ s1.imagePosition = none) →
      ∃ s, assembleSeries slices = Except.ok s ∧ s.spacingZ = 1) := by
  have expand : ∀ (slices : List ParsedSlice) (s0 : ParsedSlice)
      (rest : List ParsedSlice), sortSlices slices = s0 :: rest →
      ∃ s, assembleSeries slices = Except.ok s ∧
        s.spacingZ = spacingZOf (s0 :: rest) := by
    intro slices s0 rest h
    refine ⟨{ slices := s0 :: rest
            , spacingX := match s0.pixelSpacing with | some p => p.2 | none => 1
            , spacingY := match s0.pixelSpacing with | some p => p.1 | none => 1
            , spacingZ := spacingZOf (s0 :: rest)
            , dimensions := (s0.cols, s0.rows, (s0 :: rest).length)
            , origin := s0.imagePosition
            , orientation := s0.imageOrientation }, ?_, rfl⟩
    simp only [assembleSeries, h]
  refine ⟨?_, ?_, ?_⟩
  · intro slices s0 s1 rest p0 p1 o0 o1 o2 o3 o4 o5 hsort hp0 hp1 hori hnl
    obtain ⟨s, hok, hz⟩ := expand slices s0 (s1 :: rest) hsort
    refine ⟨s, hok, ?_⟩
    rw [hz]
    set n : V3 := cross3 ⟨o0, o1, o2⟩ ⟨o3, o4, o5⟩ with hn
    set L : ℝ := hypot3 n with hL
    have hL0 : (0 : ℝ) < L := lt_trans (by norm_num) hnl
    have hproj : ∀ dx dy dz : ℚ,
        |(dx : ℝ) * ((n.x : ℝ) / L) + (dy : ℝ) * ((n.y : ℝ) / L) +
          (dz : ℝ) * ((n.z : ℝ) / L)| =
        |(dot3 ⟨dx, dy, dz⟩ n : ℝ)| / L := by
      intro dx dy dz
      have hm : ∀ d q : ℝ, d * (q / L) = d * q / L :=
        fun d q => (mul_div_assoc d q L).symm
      rw [hm, hm, hm, div_add_div_same, div_add_div_same, abs_div,
        abs_of_pos hL0]
      congr 1
      push_cast [dot3]
      ring
    simp only [spacingZOf, hp0, hp1, hori, ← hn, ← hL, if_pos hnl]
    rw [hproj (p1.x - p0.x) (p1.y - p0.y) (p1.z - p0.z)]
    by_cases hc : (1 : ℝ) / 1000000 <
        |(dot3 ⟨p1.x - p0.x, p1.y - p0.y, p1.z - p0.z⟩ n : ℝ)| / L
    · simp only [if_pos hc]
    · simp only [if_neg hc]
  · intro slices s0 hsort
    obtain ⟨s, hok, hz⟩ := expand slices s0 [] hsort
    exact ⟨s, hok, by rw [hz]; rfl⟩
  · intro slices s0 s1 rest hsort hnone
    obtain ⟨s, hok, hz⟩ := expand slices s0 (s1 :: rest) hsort
    refine ⟨s, hok, ?_⟩
    rw [hz]
    rcases hnone with h | h
    · simp [spacingZOf, h]
    · cases h0 : s0.imagePosition <;> simp [spacingZOf, h, h0]

/-- S3 slice at z = 5 (unsorted first). -/
def sliceS3a : ParsedSlice :=
  ⟨8, 8, 16, some 0, some [], false, none, none, some ⟨0, 0, 5⟩,
   some [1, 0, 0, 0, 1, 0], some (1 / 2, 3 / 5), some 1, none, none⟩

/-- S3 slice at z = 1. -/
def sliceS3b : ParsedSlice :=
  ⟨8, 8, 16, some 0, some [], false, none, none, some ⟨0, 0, 1⟩,
   some [1, 0, 0, 0, 1, 0], some (1 / 2, 3 / 5), some 2, none, none⟩

/-- S3 slice at z = 3. -/
def sliceS3c : ParsedSlice :=
  ⟨8, 8, 16, some 0, some [], false, none, none, some ⟨0, 0, 3⟩,
   some [1, 0, 0, 0, 1, 0], some (1 / 2, 3 / 5), some 3, none, none⟩

theorem C6_z_spacing_witness :
    ∃ s, assembleSeries [sliceS3a, sliceS3b, sliceS3c] = Except.ok s ∧
      s.spacingZ =
        (if 1 / 1000000 <
            |(dot3 ⟨0 - 0, 0 - 0, 3 - 1⟩ (cross3 ⟨1, 0, 0⟩ ⟨0, 1, 0⟩) : ℝ)| /
              hypot3 (cross3 ⟨1, 0, 0⟩ ⟨0, 1, 0⟩)
         then
           |(dot3 ⟨0 - 0, 0 - 0, 3 - 1⟩ (cross3 ⟨1, 0, 0⟩ ⟨0, 1, 0⟩) : ℝ)| /
             hypot3 (cross3 ⟨1, 0, 0⟩ ⟨0, 1, 0⟩)
         else if 1 / 1000000 < hypot3 ⟨0 - 0, 0 - 0, 3 - 1⟩
         then hypot3 ⟨0 - 0, 0 - 0, 3 - 1⟩
         else 1) := by
  have hsort : sortSlices [sliceS3a, sliceS3b, sliceS3c] =
      [sliceS3b, sliceS3c, sliceS3a] := by
    norm_num [sortSlices, insertSlice, sliceLE, bySlicePosition, sliceS3a,
      sliceS3b, sliceS3c]
  have hnl : (1 : ℝ) / 1000000 < hypot3 (cross3 ⟨1, 0, 0⟩ ⟨0, 1, 0⟩) := by
    have hc : cross3 ⟨1, 0, 0⟩ ⟨0, 1, 0⟩ = (⟨0, 0, 1⟩ : V3) := by
      norm_num [cross3]
    rw [hc]
    have h1 : hypot3 (⟨0, 0, 1⟩ : V3) = 1 := by simp [hypot3]
    rw [h1]
    norm_num
  exact C6_z_spacing.1 [sliceS3a, sliceS3b, sliceS3c] sliceS3b sliceS3c
    [sliceS3a] ⟨0, 0, 1⟩ ⟨0, 0, 3⟩ 1 0 0 0 1 0 hsort rfl rfl rfl hnl

instance : Inhabited ParsedSlice :=
  ⟨⟨0, 0, 0, none, none, false, none, none, none, none, none, none, none,
    none⟩⟩

/-- Reinterpret a little-endian byte buffer as unsigned 16-bit samples (the
`Uint16Array` view); a trailing odd byte is dropped. -/
def bytesToU16 : List ℕ → List ℕ
  | b0 :: b1 :: rest => (b0 + 256 * b1) :: bytesToU16 rest
  | _ => []

/-- Two's-complement reading of an unsigned 16-bit sample (`Int16Array`). -/
def u16ToI16 (u : ℕ) : ℤ := if u < 32768 then (u : ℤ) else (u : ℤ) - 65536

/-- Two's-complement reading of an unsigned byte (`Int8Array`). -/
def u8ToI8 (u : ℕ) : ℤ := if u < 128 then (u : ℤ) else (u : ℤ) - 256

/-- The raw integer samples of one slice per its bits-allocated and
signedness flags (`handleSeries`): a 16-bit buffer is viewed as
`Int16Array`/`Uint16Array` depending on `pixelRepresentation === 1`, and any
other bit depth as `Int8Array`/`Uint8Array`. -/
def rawSamples (s : ParsedSlice) (bytes : List ℕ) : List ℤ :=
  if s.bitsAllocated = 16 then
    if s.pixelRepresentation = some 1 then (bytesToU16 bytes).map u16ToI16
    else (bytesToU16 bytes).map (fun u => (u : ℤ))
  else
    if s.pixelRepresentation = some 1 then bytes.map u8ToI8
    else bytes.map (fun u => (u : ℤ))

/-- The scalar values one slice contributes to the volume (`handleSeries`):
`sample * slope + intercept` (slope defaulting to 1, intercept to 0) for an
uncompressed slice, or the externally decoded 8-bit JPEG frame copied
verbatim. -/
def sliceScalars (s : ParsedSlice) (frame : List ℕ) : List ℚ :=
  match s.pixelData with
  | some bytes =>
      (rawSamples s bytes).map
        (fun v => (v : ℚ) * s.rescaleSlope.getD 1 + s.rescaleIntercept.getD 0)
  | none => frame.map (fun v => (v : ℚ))

/-- `TypedArray.set` semantics: overwrite `arr` from offset `off` with
`vals` (assuming the write fits). -/
def writeAt (arr : List ℚ) (off : ℕ) (vals : List ℚ) : List ℚ :=
  arr.take off ++ vals ++ arr.drop (off + vals.length)

/-- The volume-fill loop of `handleSeries` in `ParseButton.tsx`: a
zero-initialized scalar field of length w·h·d receives slice z's scalars at
offset z·w·h.  `frames8` is the display stack from `build8BitStack`, read
only for JPEG slices. -/
def buildField (slices : List ParsedSlice) (frames8 : List (List ℕ))
    (w h d : ℕ) : List ℚ :=
  (List.range d).foldl
    (fun arr z =>
      writeAt arr (z * (w * h))
        (sliceScalars (slices.getD z default) (frames8.getD z [])))
    (List.replicate (w * h * d) 0)

theorem writeAt_length (arr : List ℚ) (off : ℕ) (vals : List ℚ)
    (h : off + vals.length ≤ arr.length) :
    (writeAt arr off vals).length = arr.length := by
  simp only [writeAt, List.length_append, List.length_take, List.length_drop]
  omega

theorem writeAt_get_inside (arr : List ℚ) (off : ℕ) (vals : List ℚ) (i : ℕ)
    (hi : i < vals.length) (h : off + vals.length ≤ arr.length) :
    (writeAt arr off vals)[off + i]? = vals[i]? := by
  have htk : (arr.take off).length = off := by
    simp only [List.length_take]
    omega
  have h1 : off + i < (arr.take off ++ vals).length := by
    simp only [List.length_append, htk]
    omega
  rw [writeAt, List.getElem?_append_left h1,
    List.getElem?_append_right (htk.le.trans (Nat.le_add_right off i)),
    htk, Nat.add_sub_cancel_left]

theorem writeAt_get_before (arr : List ℚ) (off : ℕ) (vals : List ℚ) (i : ℕ)
    (hi : i < off) (hoff : off ≤ arr.length) :
    (writeAt arr off vals)[i]? = arr[i]? := by
  have htk : (arr.take off).length = off := by
    simp only [List.length_take]
    omega
  have h1 : i < (arr.take off ++ vals).length := by
    simp only [List.length_append, htk]
    omega
  rw [writeAt, List.getElem?_append_left h1,
    List.getElem?_append_left (hi.trans_eq htk.symm), List.getElem?_take,
    if_pos hi]

theorem foldl_writeAt_length (off : ℕ → ℕ) (vals : ℕ → List ℚ) :
    ∀ (zs : List ℕ) (arr : List ℚ),
      (∀ z ∈ zs, off z + (vals z).length ≤ arr.length) →
      (zs.foldl (fun a z => writeAt a (off z) (vals z)) arr).length =
        arr.length := by
  intro zs
  induction zs with
  | nil => intro arr _; rfl
  | cons z zs ih =>
      intro arr hfit
      rw [List.foldl_cons]
      have hw := writeAt_length arr (off z) (vals z) (hfit z (by simp))
      rw [ih _ (fun z' hz' => by
        rw [hw]; exact hfit z' (List.mem_cons_of_mem _ hz')), hw]

theorem foldl_writeAt_untouched (off : ℕ → ℕ) (vals : ℕ → List ℚ) :
    ∀ (zs : List ℕ) (arr : List ℚ) (i : ℕ),
      (∀ z ∈ zs, off z + (vals z).length ≤ arr.length) →
      (∀ z ∈ zs, i < off z) →
      (zs.foldl (fun a z => writeAt a (off z) (vals z)) arr)[i]? =
        arr[i]? := by
  intro zs
  induction zs with
  | nil => intro arr i _ _; rfl
  | cons z zs ih =>
      intro arr i hfit hlt
      rw [List.foldl_cons]
      have hw := writeAt_length arr (off z) (vals z) (hfit z (by simp))
      rw [ih _ i (fun z' hz' => by
          rw [hw]; exact hfit z' (List.mem_cons_of_mem _ hz'))
        (fun z' hz' => hlt z' (List.mem_cons_of_mem _ hz'))]
      exact writeAt_get_before arr (off z) (vals z) i (hlt z (by simp))
        (by have := hfit z (by simp); omega)

/-- C5: in the scalar field built by `handleSeries`, the entry at index
z·w·h + y·w + x is, for an uncompressed slice, raw sample y·w + x
(interpreted as signed or unsigned 8/16-bit per that slice's flags) times
the slice's rescale slope (default 1) plus its intercept (default 0); for a
JPEG-decoded slice it is the decoded 8-bit grayscale value copied verbatim
with no slope or intercept applied. -/
theorem C5_volume_fill (slices : List ParsedSlice) (frames8 : List (List ℕ))
    (w h d z y x : ℕ)
    (hz : z < d) (hy : y < h) (hx : x < w)
    (hlen : ∀ z' < d,
      (sliceScalars (slices.getD z' default) (frames8.getD z' [])).length =
        w * h) :
    match (slices.getD z default).pixelData with
    | some bytes =>
        (buildField slices frames8 w h d)[z * (w * h) + (y * w + x)]? =
          ((rawSamples (slices.getD z default) bytes).map
            (fun v => (v : ℚ) * (slices.getD z default).rescaleSlope.getD 1 +
              (slices.getD z default).rescaleIntercept.getD 0))[y * w + x]?
    | none =>
        (buildField slices frames8 w h d)[z * (w * h) + (y * w + x)]? =
          ((frames8.getD z []).map (fun v => (v : ℚ)))[y * w + x]? := by
  have hxy : y * w + x < w * h := by
    calc y * w + x < y * w + w := by omega
    _ = (y + 1) * w := by ring
    _ ≤ h * w := Nat.mul_le_mul_right w hy
    _ = w * h := Nat.mul_comm h w
  have hfit : ∀ z' < d,
      z' * (w * h) +
        (sliceScalars (slices.getD z' default) (frames8.getD z' [])).length ≤
        w * h * d := by
    intro z' hz'
    rw [hlen z' hz']
    calc z' * (w * h) + w * h = (z' + 1) * (w * h) := by ring
    _ ≤ d * (w * h) := Nat.mul_le_mul_right (w * h) hz'
    _ = w * h * d := Nat.mul_comm d (w * h)
  have hcore : (buildField slices frames8 w h d)[z * (w * h) + (y * w + x)]? =
      (sliceScalars (slices.getD z default) (frames8.getD z []))[y * w + x]? := by
    rw [buildField, List.range_eq_range']
    have hsplit : List.range' 0 d = List.range' 0 z ++ List.range' z (d - z) := by
      have h1 := List.range'_append_1 0 z (d - z)
      rw [Nat.zero_add] at h1
      rw [show d - z + z = d from by omega] at h1
      exact h1.symm
    have hsucc : List.range' z (d - z) = z :: List.range' (z + 1) (d - z - 1) := by
      rw [show d - z = (d - z - 1) + 1 by omega, List.range'_succ]
      simp
    rw [hsplit, hsucc, List.foldl_append, List.foldl_cons]
    have harr1len :
        ((List.range' 0 z).foldl
          (fun a z' => writeAt a (z' * (w * h))
            (sliceScalars (slices.getD z' default) (frames8.getD z' [])))
          (List.replicate (w * h * d) 0)).length = w * h * d := by
      rw [foldl_writeAt_length]
      · exact List.length_replicate _ _
      · intro z' hz'
        rw [List.length_replicate]
        exact hfit z' (by
          have := List.mem_range'_1.mp hz'
          omega)
    rw [foldl_writeAt_untouched]
    · exact writeAt_get_inside _ _ _ _ (by rw [hlen z hz]; exact hxy)
        (by rw [harr1len]; exact hfit z hz)
    · intro z' hz'
      have hm := List.mem_range'_1.mp hz'
      rw [writeAt_length _ _ _ (by rw [harr1len]; exact hfit z hz), harr1len]
      exact hfit z' (by omega)
    · intro z' hz'
      have hm := List.mem_range'_1.mp hz'
      calc z * (w * h) + (y * w + x) < z * (w * h) + w * h := by omega
      _ = (z + 1) * (w * h) := by ring
      _ ≤ z' * (w * h) := Nat.mul_le_mul_right (w * h) (by omega)
  cases hpd : (slices.getD z default).pixelData with
  | some bytes =>
      simp only []
      rw [hcore, sliceScalars, hpd]
  | none =>
      simp only []
      rw [hcore, sliceScalars, hpd]

/-- A 2×1 signed 8-bit slice with slope 2 and intercept −1. -/
def sliceC5 : ParsedSlice :=
  ⟨1, 2, 8, some 1, some [7, 130], false, some 2, some (-1), none, none,
   none, none, none, none⟩

theorem C5_volume_fill_witness :
    (buildField [sliceC5] [[]] 2 1 1)[0 * (2 * 1) + (0 * 2 + 1)]? =
      ((rawSamples ([sliceC5].getD 0 default) [7, 130]).map
        (fun v => (v : ℚ) * ([sliceC5].getD 0 default).rescaleSlope.getD 1 +
          ([sliceC5].getD 0 default).rescaleIntercept.getD 0))[0 * 2 + 1]? :=
  C5_volume_fill [sliceC5] [[]] 2 1 1 0 0 1 (by norm_num) (by norm_num)
    (by norm_num)
    (fun z' hz' => by
      have hz0 : z' = 0 := by omega
      subst hz0
      rfl)

/-- The histogram bin of a value in `computeAutoIso` (`ParseButton.tsx`):
`Math.max(0, Math.min(511, Math.floor((value - min) * scale)))` with
`scale = 511 / range`. -/
def otsuBinIdx (vmin range v : ℚ) : ℕ :=
  (max 0 (min 511 ⌊(v - vmin) * (511 / range)⌋)).toNat

/-- State of the threshold-search loop in `computeAutoIso`:
`weightBackground`, `sumBackground`, `varMax` (starting at −1), the current
`threshold`, and whether the loop has hit `break`. -/
structure OtsuSt where
  wB : ℕ
  sumB : ℕ
  varMax : ℚ
  threshold : ℕ
  done : Bool
  deriving DecidableEq, Repr

/-- One iteration of the `computeAutoIso` loop: accumulate the background
weight, `continue` while it is zero, `break` when the foreground weight
reaches zero, otherwise accumulate the first moment, compute the
between-class variance and keep the maximizing bin (strict improvement, so
ties keep the lowest index). -/
def otsuStep (total sumTotal : ℕ) (hist : ℕ → ℕ) (st : OtsuSt) (i : ℕ) :
    OtsuSt :=
  if st.done then st
  else
    let wB := st.wB + hist i
    if wB = 0 then { st with wB := wB }
    else
      let wF := total - wB
      if wF = 0 then { st with wB := wB, done := true }
      else
        let sumB := st.sumB + i * hist i
        let meanB : ℚ := (sumB : ℚ) / (wB : ℚ)
        let meanF : ℚ := ((sumTotal : ℚ) - (sumB : ℚ)) / (wF : ℚ)
        let varBetween : ℚ := (wB : ℚ) * (wF : ℚ) * (meanB - meanF) ^ 2
        if st.varMax < varBetween then
          ⟨wB, sumB, varBetween, i, false⟩
        else
          ⟨wB, sumB, st.varMax, st.threshold, false⟩

/-- The 512-bin histogram built by `computeAutoIso`, as per-bin counts. -/
def histOf (data : List ℚ) (vmin range : ℚ) : ℕ → ℕ :=
  fun i => data.countP (fun v => otsuBinIdx vmin range v == i)

/-- `computeAutoIso` from `ParseButton.tsx`: degenerate ranges and empty
fields give the midpoint; otherwise a 512-bin histogram is scanned by
`otsuStep` and the winning bin is mapped back to modality units.  The
histogram increment loop is modelled by per-bin counting, and the
`sumTotal` loop by the corresponding sum. -/
def computeAutoIso (data : List ℚ) (vmin vmax : ℚ) : ℚ :=
  if vmin ≥ vmax then (vmin + vmax) / 2
  else
    let range := if vmax - vmin = 0 then 1 else vmax - vmin
    let hist : ℕ → ℕ := histOf data vmin range
    let total := data.length
    if total = 0 then (vmin + vmax) / 2
    else
      let sumTotal := ∑ i ∈ Finset.range 512, i * hist i
      let final :=
        (List.range 512).foldl (otsuStep total sumTotal hist)
          ⟨0, 0, -1, 0, false⟩
      vmin + ((final.threshold : ℚ) / 511) * range

/-- Background weight after the bins below `k`:
`weightBackground` of the loop. -/
def otsuW (hist : ℕ → ℕ) (k : ℕ) : ℕ := ∑ j ∈ Finset.range k, hist j

/-- Background first moment after the bins below `k`:
`sumBackground` of the loop. -/
def otsuSB (hist : ℕ → ℕ) (k : ℕ) : ℕ := ∑ j ∈ Finset.range k, j * hist j

/-- The between-class variance `w0·w1·(μ0−μ1)²` at candidate threshold `i`,
with the weights as class sizes exactly as in the source. -/
def otsuVar (total sumTotal : ℕ) (hist : ℕ → ℕ) (i : ℕ) : ℚ :=
  (otsuW hist (i + 1) : ℚ) * ((total - otsuW hist (i + 1) : ℕ) : ℚ) *
    ((otsuSB hist (i + 1) : ℚ) / (otsuW hist (i + 1) : ℚ) -
      ((sumTotal : ℚ) - (otsuSB hist (i + 1) : ℚ)) /
        ((total - otsuW hist (i + 1) : ℕ) : ℚ)) ^ 2

/-- Thresholds the loop actually evaluates: nonzero background and nonzero
foreground. -/
def otsuCand (total : ℕ) (hist : ℕ → ℕ) (i : ℕ) : Prop :=
  0 < otsuW hist (i + 1) ∧ otsuW hist (i + 1) < total

theorem otsuVar_nonneg (total sumTotal : ℕ) (hist : ℕ → ℕ) (i : ℕ) :
    0 ≤ otsuVar total sumTotal hist i := by
  unfold otsuVar
  positivity

theorem otsuW_mono (hist : ℕ → ℕ) {j k : ℕ} (h : j ≤ k) :
    otsuW hist j ≤ otsuW hist k :=
  Finset.sum_le_sum_of_subset (Finset.range_subset.mpr h)

/-- The running argmax (varMax, threshold) of the `computeAutoIso` loop is
the maximum of the between-class variance over the candidates below `k`,
with ties resolved to the lowest bin. -/
def OtsuArg (total sumTotal : ℕ) (hist : ℕ → ℕ) (k : ℕ) (vm : ℚ) (tm : ℕ) :
    Prop :=
  ((∀ j, j < k → ¬ otsuCand total hist j) → vm = -1 ∧ tm = 0) ∧
  ((∃ j, j < k ∧ otsuCand total hist j) →
    otsuCand total hist tm ∧ tm < k ∧
    vm = otsuVar total sumTotal hist tm ∧
    (∀ j, j < k → otsuCand total hist j →
      otsuVar total sumTotal hist j ≤ vm) ∧
    (∀ j, j < k → otsuCand total hist j →
      otsuVar total sumTotal hist j = vm → tm ≤ j))

theorem otsuArg_skip (total sumTotal : ℕ) (hist : ℕ → ℕ) (k : ℕ) (vm : ℚ)
    (tm : ℕ) (hnc : ¬ otsuCand total hist k)
    (h : OtsuArg total sumTotal hist k vm tm) :
    OtsuArg total sumTotal hist (k + 1) vm tm := by
  obtain ⟨h1, h2⟩ := h
  constructor
  · intro hno
    exact h1 (fun j hj => hno j (by omega))
  · rintro ⟨j, hj, hcj⟩
    have hjk : j < k := by
      rcases Nat.lt_succ_iff_lt_or_eq.mp hj with h | h
      · exact h
      · exact absurd (h ▸ hcj) hnc
    obtain ⟨ha, hb, hc, hd, he⟩ := h2 ⟨j, hjk, hcj⟩
    refine ⟨ha, by omega, hc, ?_, ?_⟩
    · intro j' hj' hcj'
      have : j' < k := by
        rcases Nat.lt_succ_iff_lt_or_eq.mp hj' with h | h
        · exact h
        · exact absurd (h ▸ hcj') hnc
      exact hd j' this hcj'
    · intro j' hj' hcj' hvj'
      have : j' < k := by
        rcases Nat.lt_succ_iff_lt_or_eq.mp hj' with h | h
        · exact h
        · exact absurd (h ▸ hcj') hnc
      exact he j' this hcj' hvj'

theorem otsuArg_update (total sumTotal : ℕ) (hist : ℕ → ℕ) (k : ℕ) (vm : ℚ)
    (tm : ℕ) (hc : otsuCand total hist k)
    (h : OtsuArg total sumTotal hist k vm tm) :
    OtsuArg total sumTotal hist (k + 1)
      (if vm < otsuVar total sumTotal hist k then
        otsuVar total sumTotal hist k else vm)
      (if vm < otsuVar total sumTotal hist k then k else tm) := by
  obtain ⟨h1, h2⟩ := h
  by_cases hlt : vm < otsuVar total sumTotal hist k
  · rw [if_pos hlt, if_pos hlt]
    constructor
    · intro hno
      exact absurd hc (hno k (by omega))
    · intro _
      refine ⟨hc, by omega, rfl, ?_, ?_⟩
      · intro j hj hcj
        rcases Nat.lt_succ_iff_lt_or_eq.mp hj with hjk | hjk
        · by_cases hex : ∃ j', j' < k ∧ otsuCand total hist j'
          · obtain ⟨-, -, -, hd, -⟩ := h2 hex
            exact (hd j hjk hcj).trans hlt.le
          · exact absurd ⟨j, hjk, hcj⟩ hex
        · rw [hjk]
      · intro j hj hcj hvj
        rcases Nat.lt_succ_iff_lt_or_eq.mp hj with hjk | hjk
        · by_cases hex : ∃ j', j' < k ∧ otsuCand total hist j'
          · obtain ⟨-, -, -, hd, -⟩ := h2 hex
            exfalso
            have := hd j hjk hcj
            linarith
          · exact absurd ⟨j, hjk, hcj⟩ hex
        · omega
  · rw [if_neg hlt, if_neg hlt]
    by_cases hex : ∃ j', j' < k ∧ otsuCand total hist j'
    · obtain ⟨ha, hb, hcv, hd, he⟩ := h2 hex
      constructor
      · intro hno
        exact absurd hc (hno k (by omega))
      · intro _
        refine ⟨ha, by omega, hcv, ?_, ?_⟩
        · intro j hj hcj
          rcases Nat.lt_succ_iff_lt_or_eq.mp hj with hjk | hjk
          · exact hd j hjk hcj
          · rw [hjk]; exact not_lt.mp hlt
        · intro j hj hcj hvj
          rcases Nat.lt_succ_iff_lt_or_eq.mp hj with hjk | hjk
          · exact he j hjk hcj hvj
          · omega
    · obtain ⟨hvm, -⟩ := h1 (fun j hj hcj => hex ⟨j, hj, hcj⟩)
      exact absurd (lt_of_lt_of_le (by rw [hvm]; norm_num)
        (otsuVar_nonneg total sumTotal hist k)) hlt

/-- Full loop invariant for `otsuStep`: accumulator correctness while
running, a witness bin for `break`, and the running argmax. -/
def OtsuP (total sumTotal : ℕ) (hist : ℕ → ℕ) (k : ℕ) (st : OtsuSt) : Prop :=
  (st.done = false → st.wB = otsuW hist k ∧ st.sumB = otsuSB hist k) ∧
  (st.done = true → ∃ b, b < k ∧ otsuW hist (b + 1) = total) ∧
  OtsuArg total sumTotal hist k st.varMax st.threshold

theorem otsuStep_inv (total sumTotal : ℕ) (hist : ℕ → ℕ)
    (hWle : ∀ k, otsuW hist k ≤ total) (k : ℕ) (st : OtsuSt)
    (hP : OtsuP total sumTotal hist k st) :
    OtsuP total sumTotal hist (k + 1)
      (otsuStep total sumTotal hist st k) := by
  obtain ⟨h1, h2, harg⟩ := hP
  have hWsucc : otsuW hist (k + 1) = otsuW hist k + hist k :=
    Finset.sum_range_succ hist k
  have hSBsucc : otsuSB hist (k + 1) = otsuSB hist k + k * hist k :=
    Finset.sum_range_succ _ k
  cases hdone : st.done with
  | true =>
      obtain ⟨b, hbk, hbT⟩ := h2 hdone
      have hnc : ¬ otsuCand total hist k := by
        rintro ⟨hpos, hlt⟩
        have hmono : otsuW hist (b + 1) ≤ otsuW hist (k + 1) :=
          otsuW_mono hist (by omega)
        omega
      rw [otsuStep, if_pos hdone]
      exact ⟨fun hf => absurd (hdone.symm.trans hf) (by simp),
        fun _ => ⟨b, by omega, hbT⟩,
        otsuArg_skip total sumTotal hist k _ _ hnc harg⟩
  | false =>
      obtain ⟨hwB, hsB⟩ := h1 hdone
      rw [otsuStep, if_neg (by rw [hdone]; simp)]
      by_cases hz : st.wB + hist k = 0
      · rw [if_pos hz]
        have hhk : hist k = 0 := by omega
        have hnc : ¬ otsuCand total hist k := by
          rintro ⟨hpos, -⟩
          rw [hWsucc, ← hwB] at hpos
          omega
        refine ⟨fun _ => ⟨?_, ?_⟩, fun hf => absurd hf (by rw [hdone]; simp),
          otsuArg_skip total sumTotal hist k _ _ hnc harg⟩
        · show st.wB + hist k = otsuW hist (k + 1)
          rw [hWsucc, hwB]
        · show st.sumB = otsuSB hist (k + 1)
          rw [hSBsucc, hsB, hhk]
          ring
      · rw [if_neg hz]
        by_cases hf0 : total - (st.wB + hist k) = 0
        · rw [if_pos hf0]
          have hT : otsuW hist (k + 1) = total := by
            have := hWle (k + 1)
            rw [hWsucc, ← hwB]
            omega
          have hnc : ¬ otsuCand total hist k := by
            rintro ⟨-, hlt⟩
            omega
          exact ⟨fun hf => absurd hf (by simp),
            fun _ => ⟨k, by omega, hT⟩,
            otsuArg_skip total sumTotal hist k _ _ hnc harg⟩
        · rw [if_neg hf0]
          have hcand : otsuCand total hist k := by
            constructor
            · rw [hWsucc, ← hwB]
              omega
            · rw [hWsucc, ← hwB]
              omega
          have hvar : (↑(st.wB + hist k) : ℚ) *
              (↑(total - (st.wB + hist k)) : ℚ) *
              ((↑(st.sumB + k * hist k) : ℚ) / (↑(st.wB + hist k) : ℚ) -
                ((sumTotal : ℚ) - (↑(st.sumB + k * hist k) : ℚ)) /
                  (↑(total - (st.wB + hist k)) : ℚ)) ^ 2 =
              otsuVar total sumTotal hist k := by
            rw [otsuVar, hWsucc, hSBsucc, hwB, hsB]
          have hupd := otsuArg_update total sumTotal hist k st.varMax
            st.threshold hcand harg
          by_cases hlt : st.varMax < otsuVar total sumTotal hist k
          · rw [if_pos (by rw [hvar]; exact hlt)]
            rw [if_pos hlt, if_pos hlt] at hupd
            refine ⟨fun _ => ⟨?_, ?_⟩, fun hf => absurd hf (by simp), ?_⟩
            · show st.wB + hist k = otsuW hist (k + 1)
              rw [hWsucc, hwB]
            · show st.sumB + k * hist k = otsuSB hist (k + 1)
              rw [hSBsucc, hsB]
            · show OtsuArg total sumTotal hist (k + 1)
                ((↑(st.wB + hist k) : ℚ) *
                  (↑(total - (st.wB + hist k)) : ℚ) *
                  ((↑(st.sumB + k * hist k) : ℚ) / (↑(st.wB + hist k) : ℚ) -
                    ((sumTotal : ℚ) - (↑(st.sumB + k * hist k) : ℚ)) /
                      (↑(total - (st.wB + hist k)) : ℚ)) ^ 2) k
              rw [hvar]
              exact hupd
          · rw [if_neg (by rw [hvar]; exact hlt)]
            rw [if_neg hlt, if_neg hlt] at hupd
            exact ⟨fun _ => ⟨by rw [hWsucc, hwB], by rw [hSBsucc, hsB]⟩,
              fun hf => absurd hf (by simp), hupd⟩

theorem foldl_range_inv {σ : Type} (f : σ → ℕ → σ) (P : ℕ → σ → Prop)
    (n : ℕ) (hstep : ∀ k st, k < n → P k st → P (k + 1) (f st k))
    (st0 : σ) (h0 : P 0 st0) : P n ((List.range n).foldl f st0) := by
  suffices h : ∀ m, m ≤ n → P m ((List.range m).foldl f st0) from h n le_rfl
  intro m
  induction m with
  | zero => intro _; exact h0
  | succ m ih =>
      intro hm
      rw [List.range_succ, List.foldl_append, List.foldl_cons, List.foldl_nil]
      exact hstep m _ (by omega) (ih (by omega))

theorem otsuBinIdx_le (vmin range v : ℚ) : otsuBinIdx vmin range v ≤ 511 := by
  unfold otsuBinIdx
  omega

theorem histOf_zero_of_ge (data : List ℚ) (vmin range : ℚ) (i : ℕ)
    (hi : 512 ≤ i) : histOf data vmin range i = 0 := by
  rw [histOf, List.countP_eq_zero]
  intro v _
  have := otsuBinIdx_le vmin range v
  simp only [beq_iff_eq]
  omega

theorem sum_histOf (data : List ℚ) (vmin range : ℚ) :
    ∑ i ∈ Finset.range 512, histOf data vmin range i = data.length := by
  unfold histOf
  induction data with
  | nil => simp
  | cons v l ih =>
      simp only [List.countP_cons, List.length_cons]
      rw [Finset.sum_add_distrib, ih]
      have hmem : otsuBinIdx vmin range v ∈ Finset.range 512 :=
        Finset.mem_range.mpr (by have := otsuBinIdx_le vmin range v; omega)
      have : ∀ i ∈ Finset.range 512,
          (if (otsuBinIdx vmin range v == i) = true then 1 else 0) =
            if otsuBinIdx vmin range v = i then 1 else 0 := by
        intro i _
        simp [beq_iff_eq]
      rw [Finset.sum_congr rfl this, Finset.sum_ite_eq (Finset.range 512)
        (otsuBinIdx vmin range v) (fun _ => 1), if_pos hmem]

theorem otsuW_total_of_ge (data : List ℚ) (vmin range : ℚ) (k : ℕ)
    (hk : 512 ≤ k) :
    otsuW (histOf data vmin range) k = data.length := by
  rw [otsuW, ← sum_histOf data vmin range]
  symm
  apply Finset.sum_subset (Finset.range_subset.mpr hk)
  intro x _ hx
  exact histOf_zero_of_ge data vmin range x
    (by simpa using Finset.mem_range.not.mp hx)

theorem otsuW_le_total (data : List ℚ) (vmin range : ℚ) (k : ℕ) :
    otsuW (histOf data vmin range) k ≤ data.length := by
  by_cases hk : k ≤ 512
  · calc otsuW (histOf data vmin range) k ≤
        otsuW (histOf data vmin range) 512 := otsuW_mono _ hk
    _ = data.length := otsuW_total_of_ge data vmin range 512 le_rfl
  · rw [otsuW_total_of_ge data vmin range k (by omega)]

set_option maxRecDepth 4000 in
/-- C4: for a data field containing its bounds with min < max,
`computeAutoIso` returns bin t mapped back to modality units
(min + t/511·range), where t is a bin with nonzero background and
foreground maximizing the between-class variance w0·w1·(μ0−μ1)², ties going
to the lowest bin; degenerate inputs (min ≥ max or an empty field) yield
the midpoint (min+max)/2.  Determinism is definitional: the result is a
pure function of the field and the bounds. -/
theorem C4_auto_iso (data : List ℚ) (vmin vmax : ℚ) :
    (vmax ≤ vmin → computeAutoIso data vmin vmax = (vmin + vmax) / 2) ∧
    (data = [] → computeAutoIso data vmin vmax = (vmin + vmax) / 2) ∧
    (vmin < vmax → vmin ∈ data → vmax ∈ data →
      ∃ t : ℕ, computeAutoIso data vmin vmax =
          vmin + ((t : ℚ) / 511) * (vmax - vmin) ∧
        otsuCand data.length (histOf data vmin (vmax - vmin)) t ∧
        (∀ j, otsuCand data.length (histOf data vmin (vmax - vmin)) j →
          otsuVar data.length
              (∑ i ∈ Finset.range 512, i * histOf data vmin (vmax - vmin) i)
              (histOf data vmin (vmax - vmin)) j ≤
            otsuVar data.length
              (∑ i ∈ Finset.range 512, i * histOf data vmin (vmax - vmin) i)
              (histOf data vmin (vmax - vmin)) t) ∧
        (∀ j, otsuCand data.length (histOf data vmin (vmax - vmin)) j →
          otsuVar data.length
              (∑ i ∈ Finset.range 512, i * histOf data vmin (vmax - vmin) i)
              (histOf data vmin (vmax - vmin)) j =
            otsuVar data.length
              (∑ i ∈ Finset.range 512, i * histOf data vmin (vmax - vmin) i)
              (histOf data vmin (vmax - vmin)) t →
          t ≤ j)) := by
  refine ⟨?_, ?_, ?_⟩
  · intro hge
    unfold computeAutoIso
    rw [if_pos hge]
  · intro h
    subst h
    by_cases hge : vmin ≥ vmax <;> simp [computeAutoIso, hge]
  · intro hlt hminmem hmaxmem
    have hrne : vmax - vmin ≠ 0 := sub_ne_zero.mpr (ne_of_gt hlt)
    have hne0 : data.length ≠ 0 := by
      cases data with
      | nil => exact absurd hminmem (List.not_mem_nil vmin)
      | cons a l => simp
    have hid0 : otsuBinIdx vmin (vmax - vmin) vmin = 0 := by
      unfold otsuBinIdx
      rw [sub_self, zero_mul, Int.floor_zero]
      norm_num
    have hid511 : otsuBinIdx vmin (vmax - vmin) vmax = 511 := by
      unfold otsuBinIdx
      rw [show (vmax - vmin) * (511 / (vmax - vmin)) = 511 from by
        field_simp]
      rw [show ((511 : ℚ)) = ((511 : ℤ) : ℚ) from by norm_num,
        Int.floor_intCast]
      norm_num
      rfl
    have hH0 : 0 < histOf data vmin (vmax - vmin) 0 := by
      rw [histOf]
      exact List.countP_pos.mpr ⟨vmin, hminmem, by simp [hid0]⟩
    have hH511 : 0 < histOf data vmin (vmax - vmin) 511 := by
      rw [histOf]
      exact List.countP_pos.mpr ⟨vmax, hmaxmem, by simp [hid511]⟩
    have hcand0 : otsuCand data.length (histOf data vmin (vmax - vmin)) 0 := by
      constructor
      · rw [otsuW, Finset.sum_range_one]
        exact hH0
      · have hpair : histOf data vmin (vmax - vmin) 0 +
            histOf data vmin (vmax - vmin) 511 ≤ data.length := by
          have hsub : ∑ i ∈ ({0, 511} : Finset ℕ),
              histOf data vmin (vmax - vmin) i ≤
              ∑ i ∈ Finset.range 512, histOf data vmin (vmax - vmin) i := by
            apply Finset.sum_le_sum_of_subset
            intro x hx
            simp only [Finset.mem_insert, Finset.mem_singleton] at hx
            rcases hx with h | h <;> subst h <;>
              exact Finset.mem_range.mpr (by omega)
          rw [Finset.sum_pair (by norm_num : (0 : ℕ) ≠ 511),
            sum_histOf data vmin (vmax - vmin)] at hsub
          exact hsub
        rw [otsuW, Finset.sum_range_one]
        omega
    have hWle : ∀ k, otsuW (histOf data vmin (vmax - vmin)) k ≤ data.length :=
      otsuW_le_total data vmin (vmax - vmin)
    have hP0 : OtsuP data.length
        (∑ i ∈ Finset.range 512, i * histOf data vmin (vmax - vmin) i)
        (histOf data vmin (vmax - vmin)) 0 ⟨0, 0, -1, 0, false⟩ := by
      refine ⟨fun _ => ⟨by simp [otsuW], by simp [otsuSB]⟩,
        fun hf => by simp at hf,
        fun _ => ⟨rfl, rfl⟩,
        fun h => absurd h.choose_spec.1 (Nat.not_lt_zero _)⟩
    have hfin := foldl_range_inv
      (otsuStep data.length
        (∑ i ∈ Finset.range 512, i * histOf data vmin (vmax - vmin) i)
        (histOf data vmin (vmax - vmin)))
      (OtsuP data.length
        (∑ i ∈ Finset.range 512, i * histOf data vmin (vmax - vmin) i)
        (histOf data vmin (vmax - vmin))) 512
      (fun k st _ h => otsuStep_inv _ _ _ hWle k st h) _ hP0
    obtain ⟨hcand_t, htlt, hvm, hmax, hmin⟩ := hfin.2.2.2 ⟨0, by omega, hcand0⟩
    have hiso : computeAutoIso data vmin vmax =
        vmin + ((((List.range 512).foldl
          (otsuStep data.length
            (∑ i ∈ Finset.range 512, i * histOf data vmin (vmax - vmin) i)
            (histOf data vmin (vmax - vmin)))
          ⟨0, 0, -1, 0, false⟩).threshold : ℚ) / 511) * (vmax - vmin) := by
      unfold computeAutoIso
      rw [if_neg (not_le.mpr hlt)]
      simp only [if_neg hrne, if_neg hne0]
    refine ⟨_, hiso, hcand_t, ?_, ?_⟩
    · intro j hcj
      by_cases hj : j < 512
      · exact (hmax j hj hcj).trans hvm.le
      · exfalso
        have := otsuW_total_of_ge data vmin (vmax - vmin) (j + 1) (by omega)
        have h2 := hcj.2
        omega
    · intro j hcj hvj
      by_cases hj : j < 512
      · exact hmin j hj hcj (hvj.trans hvm.symm)
      · exfalso
        have := otsuW_total_of_ge data vmin (vmax - vmin) (j + 1) (by omega)
        have h2 := hcj.2
        omega

theorem C4_auto_iso_witness :
    ∃ t : ℕ, computeAutoIso [(0 : ℚ), 1] 0 1 =
        0 + ((t : ℚ) / 511) * (1 - 0) ∧
      otsuCand ([(0 : ℚ), 1]).length (histOf [(0 : ℚ), 1] 0 (1 - 0)) t ∧
      (∀ j, otsuCand ([(0 : ℚ), 1]).length (histOf [(0 : ℚ), 1] 0 (1 - 0)) j →
        otsuVar ([(0 : ℚ), 1]).length
            (∑ i ∈ Finset.range 512, i * histOf [(0 : ℚ), 1] 0 (1 - 0) i)
            (histOf [(0 : ℚ), 1] 0 (1 - 0)) j ≤
          otsuVar ([(0 : ℚ), 1]).length
            (∑ i ∈ Finset.range 512, i * histOf [(0 : ℚ), 1] 0 (1 - 0) i)
            (histOf [(0 : ℚ), 1] 0 (1 - 0)) t) ∧
      (∀ j, otsuCand ([(0 : ℚ), 1]).length (histOf [(0 : ℚ), 1] 0 (1 - 0)) j →
        otsuVar ([(0 : ℚ), 1]).length
            (∑ i ∈ Finset.range 512, i * histOf [(0 : ℚ), 1] 0 (1 - 0) i)
            (histOf [(0 : ℚ), 1] 0 (1 - 0)) j =
          otsuVar ([(0 : ℚ), 1]).length
            (∑ i ∈ Finset.range 512, i * histOf [(0 : ℚ), 1] 0 (1 - 0) i)
            (histOf [(0 : ℚ), 1] 0 (1 - 0)) t →
        t ≤ j) :=
  (C4_auto_iso [(0 : ℚ), 1] 0 1).2.2 (by norm_num) (by simp) (by simp)

/-- The message accepted by the marching-cubes worker, restricted to the
fields its validation phase reads.  `isoValue` is `none` when the incoming
number is not finite (`Number.isFinite` fails). -/
structure GenMessage where
  voxels : List ℚ
  dims : ℕ × ℕ × ℕ
  isoValue : Option ℚ
  voxelMin : Option ℚ
  voxelMax : Option ℚ
  deriving DecidableEq, Repr

/-- The validation errors posted by `onmessage` before any chunk runs. -/
inductive McErr
  | dimsTooSmall
  | isoNotFinite
  | isoOutOfRange (iso rangeMin rangeMax : ℚ)
  deriving DecidableEq, Repr

/-- The min scan over the volume in `onmessage`, with the `Number.isFinite`
fallback mapping the empty scan (+∞) to 0. -/
def jsScanMin : List ℚ → ℚ
  | [] => 0
  | x :: xs => xs.foldl min x

/-- The max scan over the volume in `onmessage`, with the fallback mapping
the empty scan (−∞) to 0. -/
def jsScanMax : List ℚ → ℚ
  | [] => 0
  | x :: xs => xs.foldl max x

/-- The validation phase of `onmessage` in `marchingCubes.worker.ts`
(lines 237-272): reject dimensions below 2, a non-finite iso-value, and an
iso-value strictly outside the volume range (the given `voxelMin`/`voxelMax`
when both are present, otherwise the scanned observed range). -/
def mcValidate (msg : GenMessage) : Option McErr :=
  if msg.dims.1 < 2 ∨ msg.dims.2.1 < 2 ∨ msg.dims.2.2 < 2 then
    some McErr.dimsTooSmall
  else
    match msg.isoValue with
    | none => some McErr.isoNotFinite
    | some iso =>
        let r : ℚ × ℚ :=
          match msg.voxelMin, msg.voxelMax with
          | some a, some b => (a, b)
          | _, _ => (jsScanMin msg.voxels, jsScanMax msg.voxels)
        if r.1 ≤ r.2 ∧ (iso < r.1 ∨ iso > r.2) then
          some (McErr.isoOutOfRange iso r.1 r.2)
        else none

theorem foldl_min_le_init : ∀ (l : List ℚ) (x : ℚ), l.foldl min x ≤ x := by
  intro l
  induction l with
  | nil => intro x; exact le_rfl
  | cons y ys ih => intro x; exact (ih (min x y)).trans (min_le_left x y)

theorem foldl_min_le_mem :
    ∀ (l : List ℚ) (x v : ℚ), v ∈ l → l.foldl min x ≤ v := by
  intro l
  induction l with
  | nil => intro x v hv; exact absurd hv (List.not_mem_nil v)
  | cons y ys ih =>
      intro x v hv
      rcases List.mem_cons.mp hv with h | h
      · exact h ▸ (foldl_min_le_init ys (min x y)).trans (min_le_right x y)
      · exact ih (min x y) v h

theorem le_foldl_min (lb : ℚ) :
    ∀ (l : List ℚ) (x : ℚ), lb ≤ x → (∀ v ∈ l, lb ≤ v) →
      lb ≤ l.foldl min x := by
  intro l
  induction l with
  | nil => intro x hx _; exact hx
  | cons y ys ih =>
      intro x hx hl
      exact ih (min x y) (le_min hx (hl y (by simp)))
        (fun v hv => hl v (by simp [hv]))

theorem init_le_foldl_max : ∀ (l : List ℚ) (x : ℚ), x ≤ l.foldl max x := by
  intro l
  induction l with
  | nil => intro x; exact le_rfl
  | cons y ys ih => intro x; exact (le_max_left x y).trans (ih (max x y))

theorem mem_le_foldl_max :
    ∀ (l : List ℚ) (x v : ℚ), v ∈ l → v ≤ l.foldl max x := by
  intro l
  induction l with
  | nil => intro x v hv; exact absurd hv (List.not_mem_nil v)
  | cons y ys ih =>
      intro x v hv
      rcases List.mem_cons.mp hv with h | h
      · exact h ▸ (le_max_right x y).trans (init_le_foldl_max ys (max x y))
      · exact ih (max x y) v h

theorem foldl_max_le (ub : ℚ) :
    ∀ (l : List ℚ) (x : ℚ), x ≤ ub → (∀ v ∈ l, v ≤ ub) →
      l.foldl max x ≤ ub := by
  intro l
  induction l with
  | nil => intro x hx _; exact hx
  | cons y ys ih =>
      intro x hx hl
      exact ih (max x y) (max_le hx (hl y (by simp)))
        (fun v hv => hl v (by simp [hv]))

theorem jsScanMin_le_jsScanMax (l : List ℚ) : jsScanMin l ≤ jsScanMax l := by
  cases l with
  | nil => exact le_rfl
  | cons x xs =>
      exact (foldl_min_le_init xs x).trans (init_le_foldl_max xs x)

theorem jsScanMin_eq_zero (l : List ℚ) (h0 : (0 : ℚ) ∈ l)
    (hall : ∀ v ∈ l, (0 : ℚ) ≤ v) : jsScanMin l = 0 := by
  cases l with
  | nil => rfl
  | cons x xs =>
      refine le_antisymm ?_ (le_foldl_min 0 xs x (hall x (by simp))
        (fun v hv => hall v (by simp [hv])))
      show xs.foldl min x ≤ 0
      rcases List.mem_cons.mp h0 with h | h
      · exact h ▸ foldl_min_le_init xs x
      · exact foldl_min_le_mem xs x 0 h

theorem jsScanMax_eq_one (l : List ℚ) (h1 : (1 : ℚ) ∈ l)
    (hall : ∀ v ∈ l, v ≤ 1) : jsScanMax l = 1 := by
  cases l with
  | nil => exact absurd h1 (List.not_mem_nil 1)
  | cons x xs =>
      refine le_antisymm (foldl_max_le 1 xs x (hall x (by simp))
        (fun v hv => hall v (by simp [hv]))) ?_
      show (1 : ℚ) ≤ xs.foldl max x
      rcases List.mem_cons.mp h1 with h | h
      · exact h ▸ init_le_foldl_max xs x
      · exact mem_le_foldl_max xs x 1 h

/-- The 16³ cube volume of scenario S1: scalar 1 on the centered cube
(integer coordinates 3..12 on each axis, i.e. max(|c−7.5|) ≤ 5), 0 outside,
flattened as z·256 + y·16 + x. -/
def fieldS1 : List ℚ :=
  (List.range 4096).map fun i =>
    if 3 ≤ i % 16 ∧ i % 16 ≤ 12 ∧ 3 ≤ i % 256 / 16 ∧ i % 256 / 16 ≤ 12 ∧
        3 ≤ i / 256 ∧ i / 256 ≤ 12 then 1 else 0

theorem fieldS1_scanMin : jsScanMin fieldS1 = 0 := by
  apply jsScanMin_eq_zero
  · rw [fieldS1]
    exact List.mem_map.mpr ⟨0, by simp, by norm_num⟩
  · intro v hv
    rw [fieldS1] at hv
    obtain ⟨i, -, hi⟩ := List.mem_map.mp hv
    rw [← hi]
    split <;> norm_num

theorem fieldS1_scanMax : jsScanMax fieldS1 = 1 := by
  apply jsScanMax_eq_one
  · rw [fieldS1]
    refine List.mem_map.mpr ⟨819, by simp, by norm_num⟩
  · intro v hv
    rw [fieldS1] at hv
    obtain ⟨i, -, hi⟩ := List.mem_map.mp hv
    rw [← hi]
    split <;> norm_num

theorem mcValidate_scan_out (voxels : List ℚ) (dims : ℕ × ℕ × ℕ) (iso : ℚ)
    (hdims : ¬(dims.1 < 2 ∨ dims.2.1 < 2 ∨ dims.2.2 < 2))
    (hout : iso < jsScanMin voxels ∨ jsScanMax voxels < iso) :
    mcValidate ⟨voxels, dims, some iso, none, none⟩ =
      some (McErr.isoOutOfRange iso (jsScanMin voxels) (jsScanMax voxels)) := by
  rw [mcValidate, if_neg hdims]
  show (if jsScanMin voxels ≤ jsScanMax voxels ∧
      (iso < jsScanMin voxels ∨ iso > jsScanMax voxels) then
        some (McErr.isoOutOfRange iso (jsScanMin voxels) (jsScanMax voxels))
      else none) =
    some (McErr.isoOutOfRange iso (jsScanMin voxels) (jsScanMax voxels))
  rw [if_pos ⟨jsScanMin_le_jsScanMax voxels, hout⟩]

/-- C7: the mesh extractor rejects, publishing no mesh, whenever a dimension
is below 2, the iso-value is not finite, or the iso-value lies strictly
outside the observed scalar range; in particular the 16³ cube volume of S1
with iso = 2.0 (observed range [0, 1]) yields the iso-out-of-range error. -/
theorem C7_mc_validation :
    (∀ msg : GenMessage,
      msg.dims.1 < 2 ∨ msg.dims.2.1 < 2 ∨ msg.dims.2.2 < 2 →
      ∃ e, mcValidate msg = some e) ∧
    (∀ msg : GenMessage, msg.isoValue = none →
      ∃ e, mcValidate msg = some e) ∧
    (∀ (voxels : List ℚ) (dims : ℕ × ℕ × ℕ) (iso : ℚ),
      iso < jsScanMin voxels ∨ jsScanMax voxels < iso →
      ∃ e, mcValidate ⟨voxels, dims, some iso, none, none⟩ = some e) ∧
    mcValidate ⟨fieldS1, (16, 16, 16), some 2, none, none⟩ =
      some (McErr.isoOutOfRange 2 0 1) := by
  refine ⟨?_, ?_, ?_, ?_⟩
  · intro msg hdims
    exact ⟨McErr.dimsTooSmall, by rw [mcValidate, if_pos hdims]⟩
  · intro msg hiso
    by_cases hdims : msg.dims.1 < 2 ∨ msg.dims.2.1 < 2 ∨ msg.dims.2.2 < 2
    · exact ⟨McErr.dimsTooSmall, by rw [mcValidate, if_pos hdims]⟩
    · exact ⟨McErr.isoNotFinite, by rw [mcValidate, if_neg hdims, hiso]⟩
  · intro voxels dims iso hout
    by_cases hdims : dims.1 < 2 ∨ dims.2.1 < 2 ∨ dims.2.2 < 2
    · exact ⟨McErr.dimsTooSmall, by rw [mcValidate, if_pos hdims]⟩
    · exact ⟨McErr.isoOutOfRange iso (jsScanMin voxels) (jsScanMax voxels),
        mcValidate_scan_out voxels dims iso hdims hout⟩
  · rw [mcValidate_scan_out fieldS1 (16, 16, 16) 2 (by norm_num)
      (Or.inr (by rw [fieldS1_scanMax]; norm_num)),
      fieldS1_scanMin, fieldS1_scanMax]

theorem C7_mc_validation_witness :
    ∃ e, mcValidate ⟨[], (1, 2, 2), none, none, none⟩ = some e :=
  C7_mc_validation.1 ⟨[], (1, 2, 2), none, none, none⟩ (by norm_num)

/-! ### C8: worker progress message trace

`onmessage` (marchingCubes.worker.ts lines 295-302, 485-554) walks chunk
starts in steps of `max 1 (CHUNK_SIZE - CHUNK_OVERLAP)`; every
`processChunk` call (both the degenerate-chunk early return at line 320 and
the normal path at line 486) increments `processedChunks` and posts
`progress = min 1 (processedChunks / totalChunks)`.  On success the worker
then posts `progress = 1` (line 540) followed by the mesh message; if no
chunk produced geometry it posts the empty message instead. -/

inductive WMsg where
  | progress (p : ℚ)
  | meshPublished
  | emptyResult
  deriving DecidableEq, Repr

def CHUNK_SIZE : ℕ := 64

def CHUNK_OVERLAP : ℕ := 2

def stepAxis : ℕ := max 1 (CHUNK_SIZE - CHUNK_OVERLAP)

/-- `Math.max(1, Math.ceil((n - 1) / step))` — the per-axis chunk count used
for `totalChunks` (lines 298-300). -/
def axisSteps (n : ℕ) : ℕ := max 1 ((n - 1 + (stepAxis - 1)) / stepAxis)

def totalChunksOf (w h d : ℕ) : ℕ :=
  max 1 (axisSteps w * axisSteps h * axisSteps d)

/-- Iteration count of `for (v = 0; v < n - 1; v += stepAxis)`. -/
def axisIters (n : ℕ) : ℕ := (n - 1 + (stepAxis - 1)) / stepAxis

def numChunkCalls (w h d : ℕ) : ℕ := axisIters w * axisIters h * axisIters d

/-- Progress messages posted by the chunk loop: the k-th completed call
posts `min 1 ((k+1) / totalChunks)`. -/
def chunkProgressTrace (w h d : ℕ) : List WMsg :=
  (List.range (numChunkCalls w h d)).map fun k : ℕ =>
    WMsg.progress (min 1 (((k : ℚ) + 1) / (totalChunksOf w h d : ℚ)))

/-- Full message trace of a run that passes validation: chunk progress, then
either the empty message, or `progress 1` followed by the mesh message. -/
def workerTrace (w h d : ℕ) (isEmpty : Bool) : List WMsg :=
  chunkProgressTrace w h d ++
    (if isEmpty then [WMsg.emptyResult]
     else [WMsg.progress 1, WMsg.meshPublished])

def progressValues (trace : List WMsg) : List ℚ :=
  trace.filterMap fun m => match m with
    | WMsg.progress p => some p
    | _ => none

theorem progressValues_append (a b : List WMsg) :
    progressValues (a ++ b) = progressValues a ++ progressValues b :=
  List.filterMap_append a b _

theorem progressValues_map_progress (f : ℕ → ℚ) (l : List ℕ) :
    progressValues (l.map fun k => WMsg.progress (f k)) = l.map f := by
  induction l with
  | nil => rfl
  | cons a l ih =>
      simp only [List.map_cons, progressValues, List.filterMap_cons] at ih ⊢
      rw [ih]

theorem chain'_le_map_range (f : ℕ → ℚ) (hf : ∀ k, f k ≤ f (k + 1)) (n : ℕ) :
    ((List.range n).map f).Chain' (· ≤ ·) := by
  rw [List.chain'_map]
  cases n with
  | zero => simp
  | succ m => exact (List.chain'_range_succ _ m).mpr fun k _ => hf k

/-- C8: on a successful extraction run the posted progress values are
non-decreasing, each lies in [0, 1], the last posted progress value is
exactly 1, and the mesh-published message comes after all progress
messages (it is the final message of the trace). -/
theorem C8_progress_monotone (w h d : ℕ) :
    (progressValues (workerTrace w h d false)).Chain' (· ≤ ·) ∧
    (∀ p ∈ progressValues (workerTrace w h d false), 0 ≤ p ∧ p ≤ 1) ∧
    (progressValues (workerTrace w h d false)).getLast? = some 1 ∧
    ∃ pre, workerTrace w h d false = pre ++ [WMsg.meshPublished] ∧
      WMsg.meshPublished ∉ pre := by
  have hT : (0 : ℚ) ≤ (totalChunksOf w h d : ℚ) := Nat.cast_nonneg _
  set f : ℕ → ℚ :=
    fun k => min 1 (((k : ℚ) + 1) / (totalChunksOf w h d : ℚ)) with hf
  have hmem : ∀ k, 0 ≤ f k ∧ f k ≤ 1 := by
    intro k
    constructor
    · exact le_min zero_le_one (div_nonneg (by positivity) hT)
    · exact min_le_left _ _
  have htrace : progressValues (workerTrace w h d false) =
      ((List.range (numChunkCalls w h d)).map f) ++ [1] := by
    rw [workerTrace, if_neg Bool.false_ne_true, progressValues_append,
      chunkProgressTrace, progressValues_map_progress]
    rfl
  refine ⟨?_, ?_, ?_, ?_⟩
  · rw [htrace, List.chain'_append]
    refine ⟨chain'_le_map_range f ?_ _, List.chain'_singleton 1, ?_⟩
    · intro k
      rw [hf]
      refine min_le_min le_rfl ?_
      rcases eq_or_lt_of_le hT with h0 | h0
      · rw [← h0]
        simp
      · rw [div_le_div_iff_of_pos_right h0]
        push_cast
        linarith
    · intro x hx y hy
      obtain ⟨k, -, hk⟩ :=
        List.mem_map.mp (List.mem_of_mem_getLast? hx)
      rw [List.head?_cons, Option.mem_some_iff] at hy
      rw [← hy, ← hk]
      exact (hmem k).2
  · intro p hp
    rw [htrace, List.mem_append] at hp
    rcases hp with hp | hp
    · obtain ⟨k, -, hk⟩ := List.mem_map.mp hp
      rw [← hk]
      exact hmem k
    · rw [List.mem_singleton] at hp
      rw [hp]
      exact ⟨zero_le_one, le_rfl⟩
  · rw [htrace, List.getLast?_concat]
  · refine ⟨chunkProgressTrace w h d ++ [WMsg.progress 1], ?_, ?_⟩
    · rw [workerTrace, if_neg Bool.false_ne_true, List.append_assoc]
      rfl
    · intro hmem
      rw [List.mem_append] at hmem
      rcases hmem with hmem | hmem
      · obtain ⟨k, -, hk⟩ := List.mem_map.mp hmem
        exact WMsg.noConfusion hk
      · rw [List.mem_singleton] at hmem
        exact WMsg.noConfusion hmem

/-! ### C9: published mesh invariants

`processChunk` (marchingCubes.worker.ts lines 314-480) deduplicates chunk
vertices through `getVertexIndex` (lines 328-366): a key built from the
rounded grid coordinates is looked up in `vertexMap`; a hit whose stored
world position is within 1e-4 on every component reuses the stored index;
otherwise the new vertex is appended (throwing when the chunk already holds
`MAX_CHUNK_VERTEX_COUNT` vertices) and the key is (re)bound to the fresh
index.  Every emitted triangle pushes the three returned indices.  The cube
walk and `VertexInterp3` only decide which (grid, world) triangles are fed
to this machine, so the model takes the triangle feed as input.  The
per-chunk normal accumulation is ignored here because `recomputeNormals`
overwrites the whole normals array before the mesh is published. -/

def KEY_SCALE : ℚ := 100000

def MAX_CHUNK_VERTEX_COUNT : ℕ := 4000000

def keyOf (g : V3) : ℤ × ℤ × ℤ :=
  (jsRound (g.x * KEY_SCALE), jsRound (g.y * KEY_SCALE),
    jsRound (g.z * KEY_SCALE))

structure ChunkSt where
  positions : List V3
  indices : List ℕ
  vertexMap : List ((ℤ × ℤ × ℤ) × ℕ)
  deriving Repr

def getVertexIndex (st : ChunkSt) (g w : V3) : Option (ℕ × ChunkSt) :=
  match st.vertexMap.lookup (keyOf g) with
  | some e =>
      if |(st.positions.getD e ⟨0, 0, 0⟩).x - w.x| < 1 / 10000 ∧
          |(st.positions.getD e ⟨0, 0, 0⟩).y - w.y| < 1 / 10000 ∧
          |(st.positions.getD e ⟨0, 0, 0⟩).z - w.z| < 1 / 10000 then
        some (e, st)
      else if MAX_CHUNK_VERTEX_COUNT ≤ st.positions.length then none
      else some (st.positions.length,
        ⟨st.positions ++ [w], st.indices,
          (keyOf g, st.positions.length) :: st.vertexMap⟩)
  | none =>
      if MAX_CHUNK_VERTEX_COUNT ≤ st.positions.length then none
      else some (st.positions.length,
        ⟨st.positions ++ [w], st.indices,
          (keyOf g, st.positions.length) :: st.vertexMap⟩)

/-- One triangle fed to the chunk machine: grid and world coordinates of its
three corners (lines 428-460). -/
structure TriIn where
  g0 : V3
  w0 : V3
  g1 : V3
  w1 : V3
  g2 : V3
  w2 : V3

def emitTri (st : ChunkSt) (t : TriIn) : Option ChunkSt :=
  match getVertexIndex st t.g0 t.w0 with
  | none => none
  | some (i0, st0) =>
    match getVertexIndex st0 t.g1 t.w1 with
    | none => none
    | some (i1, st1) =>
      match getVertexIndex st1 t.g2 t.w2 with
      | none => none
      | some (i2, st2) =>
        some ⟨st2.positions, st2.indices ++ [i0, i1, i2], st2.vertexMap⟩

def runChunk (tris : List TriIn) : Option ChunkSt :=
  tris.foldlM emitTri ⟨[], [], []⟩

/-- Indices and map entries stay below the vertex count. -/
def MapInv (st : ChunkSt) : Prop :=
  (∀ i ∈ st.indices, i < st.positions.length) ∧
  (∀ kv ∈ st.vertexMap, kv.2 < st.positions.length)

theorem lookup_mem_pairs {α β : Type} [BEq α] (l : List (α × β)) (a : α)
    (b : β) (h : l.lookup a = some b) : ∃ k, (k, b) ∈ l := by
  induction l with
  | nil => exact absurd h (by simp)
  | cons kv rest ih =>
      obtain ⟨k, v⟩ := kv
      rw [List.lookup_cons] at h
      split at h
      · rw [Option.some_inj] at h
        subst h
        exact ⟨k, List.mem_cons_self _ _⟩
      · obtain ⟨q, hq⟩ := ih h
        exact ⟨q, List.mem_cons_of_mem _ hq⟩

theorem getVertexIndex_spec (st : ChunkSt) (g w : V3) (i : ℕ) (st' : ChunkSt)
    (hm : MapInv st) (h : getVertexIndex st g w = some (i, st')) :
    i < st'.positions.length ∧ MapInv st' ∧
      st.positions.length ≤ st'.positions.length ∧
      st'.indices = st.indices := by
  have hlen : st.positions.length < (st.positions ++ [w]).length := by
    simp
  have hpush : st' = ⟨st.positions ++ [w], st.indices,
        (keyOf g, st.positions.length) :: st.vertexMap⟩ →
      i = st.positions.length →
      i < st'.positions.length ∧ MapInv st' ∧
        st.positions.length ≤ st'.positions.length ∧
        st'.indices = st.indices := by
    intro hst hi
    subst hst
    subst hi
    refine ⟨hlen, ⟨fun j hj => lt_of_lt_of_le (hm.1 j hj) hlen.le,
      fun kv hkv => ?_⟩, hlen.le, rfl⟩
    rcases List.mem_cons.mp hkv with hkv | hkv
    · rw [hkv]
      exact hlen
    · exact (hm.2 kv hkv).trans hlen
  rw [getVertexIndex] at h
  split at h
  next e hlk =>
    split at h
    · rw [Option.some_inj, Prod.mk.injEq] at h
      obtain ⟨hi, hst⟩ := h
      subst hi
      subst hst
      obtain ⟨k, hk⟩ := lookup_mem_pairs _ _ _ hlk
      exact ⟨hm.2 (k, e) hk, hm, le_rfl, rfl⟩
    · split at h
      · exact absurd h (by simp)
      · rw [Option.some_inj, Prod.mk.injEq] at h
        exact hpush h.2.symm h.1.symm
  next hlk =>
    split at h
    · exact absurd h (by simp)
    · rw [Option.some_inj, Prod.mk.injEq] at h
      exact hpush h.2.symm h.1.symm

theorem emitTri_spec (st st' : ChunkSt) (t : TriIn) (hm : MapInv st)
    (h : emitTri st t = some st') :
    MapInv st' ∧ st'.indices ≠ [] := by
  rw [emitTri] at h
  split at h
  · exact absurd h (by simp)
  next i0 st0 h0 =>
    split at h
    · exact absurd h (by simp)
    next i1 st1 h1 =>
      split at h
      · exact absurd h (by simp)
      next i2 st2 h2 =>
        rw [Option.some_inj] at h
        obtain ⟨hi0, hm0, hl0, -⟩ := getVertexIndex_spec st t.g0 t.w0 i0 st0 hm h0
        obtain ⟨hi1, hm1, hl1, -⟩ := getVertexIndex_spec st0 t.g1 t.w1 i1 st1 hm0 h1
        obtain ⟨hi2, hm2, hl2, -⟩ := getVertexIndex_spec st1 t.g2 t.w2 i2 st2 hm1 h2
        subst h
        refine ⟨⟨fun j hj => ?_, fun kv hkv => hm2.2 kv hkv⟩, by simp⟩
        rcases List.mem_append.mp hj with hj | hj
        · exact hm2.1 j hj
        · rcases List.mem_cons.mp hj with hj | hj
          · rw [hj]
            exact lt_of_lt_of_le hi0 (hl1.trans hl2)
          · rcases List.mem_cons.mp hj with hj | hj
            · rw [hj]
              exact lt_of_lt_of_le hi1 hl2
            · rw [List.mem_singleton.mp hj]
              exact hi2

theorem foldlM_option_inv {α σ : Type} (P : σ → Prop) (f : σ → α → Option σ)
    (hf : ∀ s a s', P s → f s a = some s' → P s') :
    ∀ (l : List α) (s s' : σ), P s → l.foldlM f s = some s' → P s' := by
  intro l
  induction l with
  | nil =>
      intro s s' hs h
      rw [List.foldlM_nil, Option.pure_def, Option.some_inj] at h
      exact h ▸ hs
  | cons a rest ih =>
      intro s s' hs h
      rw [List.foldlM_cons] at h
      cases hfa : f s a with
      | none => rw [hfa] at h; exact absurd h (by simp)
      | some s1 =>
          rw [hfa] at h
          simp only [Option.bind_eq_bind, Option.some_bind] at h
          exact ih s1 s' (hf s a s1 hs hfa) h

theorem runChunk_inv (tris : List TriIn) (st : ChunkSt)
    (h : runChunk tris = some st) :
    MapInv st ∧ (st.positions ≠ [] → st.indices ≠ []) := by
  refine foldlM_option_inv
    (fun s => MapInv s ∧ (s.positions ≠ [] → s.indices ≠ []))
    emitTri ?_ tris ⟨[], [], []⟩ st
    ⟨⟨by simp, by simp⟩, fun hp => absurd rfl hp⟩ h
  intro s a s' hs hstep
  obtain ⟨hm', hne⟩ := emitTri_spec s s' a hs.1 hstep
  exact ⟨hm', fun _ => hne⟩

/-! Concatenation with index rebasing (worker lines 503-530): positions are
appended chunk by chunk while each chunk's indices are shifted by the number
of vertices accumulated so far (`vertexBase`). -/

structure Chunk where
  positions : List V3
  indices : List ℕ

def chunkOut (st : ChunkSt) : Chunk := ⟨st.positions, st.indices⟩

def concatStep (acc c : Chunk) : Chunk :=
  ⟨acc.positions ++ c.positions,
    acc.indices ++ c.indices.map fun i => i + acc.positions.length⟩

def concatChunks (cs : List Chunk) : Chunk :=
  cs.foldl concatStep ⟨[], []⟩

/-- The invariant carried through the concatenation fold. -/
def ChunkOk (c : Chunk) : Prop :=
  (∀ i ∈ c.indices, i < c.positions.length) ∧
  (c.positions ≠ [] → c.indices ≠ [])

theorem concatStep_ok (acc c : Chunk) (ha : ChunkOk acc) (hc : ChunkOk c) :
    ChunkOk (concatStep acc c) := by
  constructor
  · intro i hi
    rw [concatStep] at hi ⊢
    rw [List.length_append]
    rcases List.mem_append.mp hi with hi | hi
    · exact lt_of_lt_of_le (ha.1 i hi) (Nat.le_add_right _ _)
    · obtain ⟨j, hj, hij⟩ := List.mem_map.mp hi
      rw [← hij]
      have := hc.1 j hj
      omega
  · intro hp
    rw [concatStep] at hp ⊢
    by_cases hap : acc.positions = []
    · have hcp : c.positions ≠ [] := by
        intro hcc
        exact hp (by rw [hap, hcc, List.append_nil])
      have : c.indices ≠ [] := hc.2 hcp
      intro habs
      rw [List.append_eq_nil] at habs
      exact this (List.map_eq_nil.mp habs.2)
    · have : acc.indices ≠ [] := ha.2 hap
      intro habs
      rw [List.append_eq_nil] at habs
      exact this habs.1

theorem concatChunks_ok (cs : List Chunk) (hcs : ∀ c ∈ cs, ChunkOk c) :
    ChunkOk (concatChunks cs) := by
  rw [concatChunks]
  have fold : ∀ (l : List Chunk) (acc : Chunk), ChunkOk acc →
      (∀ c ∈ l, ChunkOk c) → ChunkOk (l.foldl concatStep acc) := by
    intro l
    induction l with
    | nil => intro acc ha _; exact ha
    | cons c rest ih =>
        intro acc ha hl
        rw [List.foldl_cons]
        exact ih (concatStep acc c)
          (concatStep_ok acc c ha (hl c (List.mem_cons_self c rest)))
          (fun x hx => hl x (List.mem_cons_of_mem c hx))
  exact fold cs ⟨[], []⟩ ⟨by simp, fun hp => absurd rfl hp⟩ hcs

/-! Taubin smoothing (worker lines 72-141): two iterations, each applying
the weights 0.4 and -0.34 in turn; a pass accumulates neighbour sums per
triangle (skipping triangles with an out-of-range index) and moves every
touched vertex towards the neighbour average.  Only positions change; the
published index and vertex counts are untouched. -/

def addV3 (a b : V3) : V3 := ⟨a.x + b.x, a.y + b.y, a.z + b.z⟩

def subV3 (a b : V3) : V3 := ⟨a.x - b.x, a.y - b.y, a.z - b.z⟩

def smulV3 (q : ℚ) (a : V3) : V3 := ⟨q * a.x, q * a.y, q * a.z⟩

def triplesOf : List ℕ → List (ℕ × ℕ × ℕ)
  | a :: b :: c :: rest => (a, b, c) :: triplesOf rest
  | _ => []

def taubinAccum (ps : List V3) (tris : List (ℕ × ℕ × ℕ)) :
    (ℕ → V3) × (ℕ → ℕ) :=
  tris.foldl (fun ac t =>
    if t.1 < ps.length ∧ t.2.1 < ps.length ∧ t.2.2 < ps.length then
      let pa := ps.getD t.1 ⟨0, 0, 0⟩
      let pb := ps.getD t.2.1 ⟨0, 0, 0⟩
      let pc := ps.getD t.2.2 ⟨0, 0, 0⟩
      (fun v => addV3 (ac.1 v)
        (addV3 (if v = t.1 then addV3 pb pc else ⟨0, 0, 0⟩)
          (addV3 (if v = t.2.1 then addV3 pa pc else ⟨0, 0, 0⟩)
            (if v = t.2.2 then addV3 pa pb else ⟨0, 0, 0⟩))),
       fun v => ac.2 v + (if v = t.1 then 2 else 0) +
         (if v = t.2.1 then 2 else 0) + (if v = t.2.2 then 2 else 0))
    else ac)
    (fun _ => ⟨0, 0, 0⟩, fun _ => 0)

def applyWeight (weight : ℚ) (ps : List V3) (tris : List (ℕ × ℕ × ℕ)) :
    List V3 :=
  if weight = 0 then ps
  else
    let ac := taubinAccum ps tris
    (List.range ps.length).map fun v =>
      let p := ps.getD v ⟨0, 0, 0⟩
      if ac.2 v = 0 then p
      else addV3 p (smulV3 weight
        (subV3 (smulV3 (1 / (ac.2 v : ℚ)) (ac.1 v)) p))

def smoothMeshTaubin (ps : List V3) (idxs : List ℕ) : List V3 :=
  if ps.length = 0 ∨ idxs.length = 0 then ps
  else
    (List.range 2).foldl
      (fun acc _ =>
        applyWeight (-(34 / 100)) (applyWeight (4 / 10) acc (triplesOf idxs))
          (triplesOf idxs))
      ps

theorem applyWeight_length (weight : ℚ) (ps : List V3)
    (tris : List (ℕ × ℕ × ℕ)) : (applyWeight weight ps tris).length = ps.length := by
  rw [applyWeight]
  split
  · rfl
  · rw [List.length_map, List.length_range]

theorem smoothMeshTaubin_length (ps : List V3) (idxs : List ℕ) :
    (smoothMeshTaubin ps idxs).length = ps.length := by
  rw [smoothMeshTaubin]
  split
  · rfl
  · show ((List.range 2).foldl _ ps).length = ps.length
    rw [show List.range 2 = [0, 1] from rfl, List.foldl_cons,
      List.foldl_cons, List.foldl_nil, applyWeight_length,
      applyWeight_length, applyWeight_length, applyWeight_length]

/-! `recomputeNormals` (worker lines 143-215): face normals (unnormalized
cross products) are accumulated on each triangle's three vertices, then each
vertex normal is normalized when its accumulated length exceeds 1e-6 and
otherwise replaced by the default (0, 0, 1).  When the mesh has no vertices
or no indices the normals are left filled with zeros. -/

def faceNormalAccum (ps : List V3) (tris : List (ℕ × ℕ × ℕ)) : ℕ → V3 :=
  tris.foldl (fun acc t =>
    let a := ps.getD t.1 ⟨0, 0, 0⟩
    let b := ps.getD t.2.1 ⟨0, 0, 0⟩
    let c := ps.getD t.2.2 ⟨0, 0, 0⟩
    let n := cross3 (subV3 b a) (subV3 c a)
    fun v => addV3 (acc v)
      (smulV3 ((if v = t.1 then 1 else 0) + (if v = t.2.1 then 1 else 0) +
        (if v = t.2.2 then 1 else 0) : ℚ) n))
    (fun _ => ⟨0, 0, 0⟩)

noncomputable def normalOut (ps : List V3) (idxs : List ℕ) (v : ℕ) :
    ℝ × ℝ × ℝ :=
  let n := faceNormalAccum ps (triplesOf idxs) v
  if 1 / 1000000 < hypot3 n then
    ((n.x : ℝ) / hypot3 n, (n.y : ℝ) / hypot3 n, (n.z : ℝ) / hypot3 n)
  else ((0 : ℝ), (0 : ℝ), (1 : ℝ))

noncomputable def recomputeNormalsOut (ps : List V3) (idxs : List ℕ) :
    List (ℝ × ℝ × ℝ) :=
  if ps.length = 0 ∨ idxs.length = 0 then
    List.replicate ps.length ((0 : ℝ), (0 : ℝ), (0 : ℝ))
  else
    (List.range ps.length).map (normalOut ps idxs)

noncomputable def hypot3R (p : ℝ × ℝ × ℝ) : ℝ :=
  Real.sqrt (p.1 ^ 2 + p.2.1 ^ 2 + p.2.2 ^ 2)

theorem hypot3R_normalize (n : V3) (h : 0 < hypot3 n) :
    hypot3R ((n.x : ℝ) / hypot3 n, (n.y : ℝ) / hypot3 n,
      (n.z : ℝ) / hypot3 n) = 1 := by
  have hs : (0 : ℝ) < (n.x : ℝ) ^ 2 + (n.y : ℝ) ^ 2 + (n.z : ℝ) ^ 2 :=
    Real.sqrt_pos.mp h
  rw [hypot3R]
  have hL : hypot3 n ^ 2 = (n.x : ℝ) ^ 2 + (n.y : ℝ) ^ 2 + (n.z : ℝ) ^ 2 :=
    Real.sq_sqrt hs.le
  have : ((n.x : ℝ) / hypot3 n) ^ 2 + ((n.y : ℝ) / hypot3 n) ^ 2 +
      ((n.z : ℝ) / hypot3 n) ^ 2 =
      ((n.x : ℝ) ^ 2 + (n.y : ℝ) ^ 2 + (n.z : ℝ) ^ 2) / hypot3 n ^ 2 := by
    field_simp
  rw [this, hL, div_self hs.ne', Real.sqrt_one]

/-! The global bounding box (worker lines 306-311, 357-362, 546-552) starts
at ±infinity, is tightened by every vertex pushed in `getVertexIndex`, and
collapses to the origin pair when no vertex was ever pushed. -/

def minV3 (a b : V3) : V3 := ⟨min a.x b.x, min a.y b.y, min a.z b.z⟩

def maxV3 (a b : V3) : V3 := ⟨max a.x b.x, max a.y b.y, max a.z b.z⟩

def bboxOf (ps : List V3) : V3 × V3 :=
  match ps with
  | [] => (⟨0, 0, 0⟩, ⟨0, 0, 0⟩)
  | p :: rest => rest.foldl (fun mm q => (minV3 mm.1 q, maxV3 mm.2 q)) (p, p)

theorem foldl_inv_list {σ α : Type} (P : σ → Prop) (f : σ → α → σ)
    (hf : ∀ s a, P s → P (f s a)) :
    ∀ (l : List α) (s : σ), P s → P (l.foldl f s) := by
  intro l
  induction l with
  | nil => intro s hs; exact hs
  | cons a rest ih =>
      intro s hs
      rw [List.foldl_cons]
      exact ih (f s a) (hf s a hs)

theorem bboxOf_le (ps : List V3) :
    (bboxOf ps).1.x ≤ (bboxOf ps).2.x ∧
    (bboxOf ps).1.y ≤ (bboxOf ps).2.y ∧
    (bboxOf ps).1.z ≤ (bboxOf ps).2.z := by
  cases ps with
  | nil => exact ⟨le_rfl, le_rfl, le_rfl⟩
  | cons p rest =>
      refine foldl_inv_list
        (fun mm : V3 × V3 => mm.1.x ≤ mm.2.x ∧ mm.1.y ≤ mm.2.y ∧
          mm.1.z ≤ mm.2.z)
        (fun mm q => (minV3 mm.1 q, maxV3 mm.2 q)) ?_ rest (p, p)
        ⟨le_rfl, le_rfl, le_rfl⟩
      intro mm q _
      exact ⟨(min_le_right _ _).trans (le_max_right _ _),
        (min_le_right _ _).trans (le_max_right _ _),
        (min_le_right _ _).trans (le_max_right _ _)⟩

/-! The published mesh: concatenate the chunk outputs, smooth the positions,
recompute the normals, and report the accumulated bounding box. -/

def publishedMesh (sts : List ChunkSt) : Chunk :=
  concatChunks (sts.map chunkOut)

def publishedPositions (sts : List ChunkSt) : List V3 :=
  smoothMeshTaubin (publishedMesh sts).positions (publishedMesh sts).indices

noncomputable def publishedNormals (sts : List ChunkSt) : List (ℝ × ℝ × ℝ) :=
  recomputeNormalsOut (publishedPositions sts) (publishedMesh sts).indices

def publishedBBox (sts : List ChunkSt) : V3 × V3 :=
  bboxOf (publishedMesh sts).positions

/-- C9: for every mesh published by the extractor — assembled from chunk
states each produced by a successful chunk run holding at least one vertex —
every rebased index is below the vertex count, every recomputed vertex
normal has unit length up to 1e-3 except those defaulted to (0, 0, 1) when
the accumulated face-normal length is at most 1e-6, and the bounding box
satisfies min ≤ max componentwise. -/
theorem C9_mesh_invariants (sts : List ChunkSt)
    (hrun : ∀ st ∈ sts, (∃ tris, runChunk tris = some st) ∧
      st.positions ≠ []) :
    (∀ i ∈ (publishedMesh sts).indices,
      i < (publishedPositions sts).length) ∧
    (∀ v, v < (publishedPositions sts).length →
      ((publishedNormals sts).getD v (0, 0, 1) = ((0 : ℝ), (0 : ℝ), (1 : ℝ)) ∧
        hypot3 (faceNormalAccum (publishedPositions sts)
          (triplesOf (publishedMesh sts).indices) v) ≤ 1 / 1000000) ∨
      (1 - 1 / 1000 ≤ hypot3R ((publishedNormals sts).getD v (0, 0, 1)) ∧
        hypot3R ((publishedNormals sts).getD v (0, 0, 1)) ≤ 1 + 1 / 1000)) ∧
    ((publishedBBox sts).1.x ≤ (publishedBBox sts).2.x ∧
     (publishedBBox sts).1.y ≤ (publishedBBox sts).2.y ∧
     (publishedBBox sts).1.z ≤ (publishedBBox sts).2.z) := by
  have hok : ChunkOk (publishedMesh sts) := by
    refine concatChunks_ok _ ?_
    intro c hc
    obtain ⟨st, hst, rfl⟩ := List.mem_map.mp hc
    obtain ⟨⟨tris, htris⟩, hne⟩ := hrun st hst
    obtain ⟨hm, himp⟩ := runChunk_inv tris st htris
    exact ⟨fun i hi => hm.1 i hi, fun _ => himp hne⟩
  have hlen : (publishedPositions sts).length =
      (publishedMesh sts).positions.length :=
    smoothMeshTaubin_length _ _
  refine ⟨?_, ?_, bboxOf_le _⟩
  · intro i hi
    rw [hlen]
    exact hok.1 i hi
  · intro v hv
    have hp0 : (publishedPositions sts).length ≠ 0 := by omega
    have hi0 : (publishedMesh sts).indices.length ≠ 0 := by
      have hpos : (publishedMesh sts).positions ≠ [] := by
        intro habs
        rw [habs] at hlen
        exact hp0 (by rw [hlen]; rfl)
      intro habs
      exact hok.2 hpos (List.length_eq_zero.mp habs)
    have hval : (publishedNormals sts).getD v (0, 0, 1) =
        normalOut (publishedPositions sts) (publishedMesh sts).indices v := by
      rw [publishedNormals, recomputeNormalsOut,
        if_neg (by push_neg; exact ⟨hp0, hi0⟩),
        List.getD_eq_getElem?_getD, List.getElem?_map,
        List.getElem?_range hv, Option.map_some', Option.getD_some]
    rw [hval, normalOut]
    by_cases h6 : 1 / 1000000 <
        hypot3 (faceNormalAccum (publishedPositions sts)
          (triplesOf (publishedMesh sts).indices) v)
    · right
      rw [if_pos h6, hypot3R_normalize _ (lt_trans (by norm_num) h6)]
      norm_num
    · left
      rw [if_neg h6]
      exact ⟨rfl, not_lt.mp h6⟩

/-- One concrete triangle: unit-square corner points with world coordinates
equal to grid coordinates. -/
def triW : TriIn :=
  ⟨⟨0, 0, 0⟩, ⟨0, 0, 0⟩, ⟨1, 0, 0⟩, ⟨1, 0, 0⟩, ⟨0, 1, 0⟩, ⟨0, 1, 0⟩⟩

/-- The chunk state obtained by running the chunk machine on `triW`. -/
def stW : ChunkSt :=
  ⟨[⟨0, 0, 0⟩, ⟨1, 0, 0⟩, ⟨0, 1, 0⟩], [0, 1, 2],
    [(((0 : ℤ), (100000 : ℤ), (0 : ℤ)), 2),
     (((100000 : ℤ), (0 : ℤ), (0 : ℤ)), 1),
     (((0 : ℤ), (0 : ℤ), (0 : ℤ)), 0)]⟩

theorem runChunk_triW : runChunk [triW] = some stW := by
  have hf0 : jsRound 0 = 0 := by
    rw [jsRound, show (0 : ℚ) + 1 / 2 = 1 / 2 by norm_num, Int.floor_eq_iff]
    norm_num
  have hf1 : jsRound 100000 = 100000 := by
    rw [jsRound, Int.floor_eq_iff]
    norm_num
  have hb1 : (((100000 : ℤ), (0 : ℤ), (0 : ℤ)) ==
      ((0 : ℤ), (0 : ℤ), (0 : ℤ))) = false := by decide
  have hb2 : (((0 : ℤ), (100000 : ℤ), (0 : ℤ)) ==
      ((100000 : ℤ), (0 : ℤ), (0 : ℤ))) = false := by decide
  have hb3 : (((0 : ℤ), (100000 : ℤ), (0 : ℤ)) ==
      ((0 : ℤ), (0 : ℤ), (0 : ℤ))) = false := by decide
  norm_num [runChunk, List.foldlM_cons, List.foldlM_nil, emitTri,
    getVertexIndex, keyOf, triW, stW, KEY_SCALE, MAX_CHUNK_VERTEX_COUNT,
    hf0, hf1, hb1, hb2, hb3, List.lookup, Option.bind_eq_bind,
    Option.some_bind, Option.pure_def, -Prod.mk_zero_zero]

theorem C9_mesh_invariants_witness :
    (∀ st ∈ [stW], (∃ tris, runChunk tris = some st) ∧
      st.positions ≠ []) ∧
    ((∀ i ∈ (publishedMesh [stW]).indices,
      i < (publishedPositions [stW]).length) ∧
    (∀ v, v < (publishedPositions [stW]).length →
      ((publishedNormals [stW]).getD v (0, 0, 1) =
          ((0 : ℝ), (0 : ℝ), (1 : ℝ)) ∧
        hypot3 (faceNormalAccum (publishedPositions [stW])
          (triplesOf (publishedMesh [stW]).indices) v) ≤ 1 / 1000000) ∨
      (1 - 1 / 1000 ≤ hypot3R ((publishedNormals [stW]).getD v (0, 0, 1)) ∧
        hypot3R ((publishedNormals [stW]).getD v (0, 0, 1)) ≤ 1 + 1 / 1000)) ∧
    ((publishedBBox [stW]).1.x ≤ (publishedBBox [stW]).2.x ∧
     (publishedBBox [stW]).1.y ≤ (publishedBBox [stW]).2.y ∧
     (publishedBBox [stW]).1.z ≤ (publishedBBox [stW]).2.z)) := by
  have hhyp : ∀ st ∈ [stW], (∃ tris, runChunk tris = some st) ∧
      st.positions ≠ [] := by
    intro st hst
    rw [List.mem_singleton] at hst
    subst hst
    exact ⟨⟨[triW], runChunk_triW⟩, by simp [stW]⟩
  exact ⟨hhyp, C9_mesh_invariants [stW] hhyp⟩
